import Mathlib

/-!
Verification of the Morse Melody Studio core against its specification.

This file gives a shallow embedding of the program's data model and
algorithms, translated from `src/app.py` (the studio application: morse
table, melody encoder `IntelligentMelodyGenerator`, chord generator,
decoder `decode_midi_to_morse`, and the generate-button flow of `main`),
from `src/enhanced_morse_music.py` (the humanized ai-enhanced melody
emission used by `morse_to_ai_enhanced_midi` / `MelodicAI`), and from
`src/morse_music.py` (the legacy `morse_to_midi` timing).

Modelling conventions:
* Python floats are modelled as exact rationals (`ℚ`); every timing
  constant in the source is a short decimal literal and all comparisons
  in the decoder have margins far wider than any float rounding.
* Calls into Python's random generator are modelled by a stream
  `rng : ℕ → ℕ` of draws, one index per call site; a weighted or
  bounded choice selects an element of the same support the source
  chooses from.  All theorems about random behaviour quantify over
  every stream, so only the support of each draw matters.
* Python's built-in `hash` (salted per process) and the seeded Mersenne
  Twister are external runtime components; they are modelled as explicit
  function parameters `pyHash` / `prng` of the generate-button flow.
-/

namespace MorseStudio

/-- Morse stream symbols: dot `'.'`, dash `'-'`, letter separator `' '`,
word separator `'/'`, as used throughout `app.py`. -/
inductive MSym
  | dot
  | dash
  | lsep
  | wsep
deriving DecidableEq, Repr

/-- The `MORSE_CODE` dictionary of `app.py` (same table in the other two
source files), in source order; patterns are kept as character lists. -/
def MORSE_CODE : List (Char × List Char) :=
  [('A', ['.', '-']), ('B', ['-', '.', '.', '.']), ('C', ['-', '.', '-', '.']),
   ('D', ['-', '.', '.']), ('E', ['.']), ('F', ['.', '.', '-', '.']),
   ('G', ['-', '-', '.']), ('H', ['.', '.', '.', '.']), ('I', ['.', '.']),
   ('J', ['.', '-', '-', '-']), ('K', ['-', '.', '-']), ('L', ['.', '-', '.', '.']),
   ('M', ['-', '-']), ('N', ['-', '.']), ('O', ['-', '-', '-']),
   ('P', ['.', '-', '-', '.']), ('Q', ['-', '-', '.', '-']), ('R', ['.', '-', '.']),
   ('S', ['.', '.', '.']), ('T', ['-']), ('U', ['.', '.', '-']),
   ('V', ['.', '.', '.', '-']), ('W', ['.', '-', '-']), ('X', ['-', '.', '.', '-']),
   ('Y', ['-', '.', '-', '-']), ('Z', ['-', '-', '.', '.']),
   ('0', ['-', '-', '-', '-', '-']), ('1', ['.', '-', '-', '-', '-']),
   ('2', ['.', '.', '-', '-', '-']), ('3', ['.', '.', '.', '-', '-']),
   ('4', ['.', '.', '.', '.', '-']), ('5', ['.', '.', '.', '.', '.']),
   ('6', ['-', '.', '.', '.', '.']), ('7', ['-', '-', '.', '.', '.']),
   ('8', ['-', '-', '-', '.', '.']), ('9', ['-', '-', '-', '-', '.']),
   (' ', ['/'])]

/-- First-match association lookup on the morse table. -/
def assocPat : List (Char × List Char) → Char → Option (List Char)
  | [], _ => none
  | kv :: rest, c => if kv.1 = c then some kv.2 else assocPat rest c

/-- `MORSE_CODE[c]` as an optional lookup (`c in MORSE_CODE` plus access). -/
def patOf (c : Char) : Option (List Char) := assocPat MORSE_CODE c

/-- A pattern character as a symbol (`'.'` dot, `'-'` dash, `'/'` word gap). -/
def charSym (ch : Char) : MSym :=
  if ch = '.' then .dot else if ch = '-' then .dash else .wsep

def symsOfPattern (p : List Char) : List MSym := p.map charSym

/-- The morse sequence built by `IntelligentMelodyGenerator.generate_melody`:
for each upper-cased character, its pattern followed by a letter gap when the
character is in `MORSE_CODE` (a space char is, with pattern `'/'`), otherwise
a word gap for a space (dead branch in the source) and nothing else. -/
def morseSeq (msg : List Char) : List MSym :=
  msg.flatMap (fun c =>
    match patOf c.toUpper with
    | some p => symsOfPattern p ++ [.lsep]
    | none => if c.toUpper = ' ' then [.wsep] else [])

/-- The `MusicKey` enum of `app.py`. -/
inductive MKey
  | cMajor
  | gMajor
  | dMajor
  | aMinor
  | eMinor
  | cPentatonic
  | aBlues
deriving DecidableEq, Repr

def keyRoot : MKey → ℤ
  | .cMajor => 60
  | .gMajor => 67
  | .dMajor => 62
  | .aMinor => 69
  | .eMinor => 64
  | .cPentatonic => 60
  | .aBlues => 69

def keyScale : MKey → List ℤ
  | .cMajor | .gMajor | .dMajor => [0, 2, 4, 5, 7, 9, 11]
  | .aMinor | .eMinor => [0, 2, 3, 5, 7, 8, 10]
  | .cPentatonic => [0, 2, 4, 7, 9]
  | .aBlues => [0, 3, 5, 6, 7, 10]

/-- Python enum member name (`key.name`), used in the seed string. -/
def keyEnumName : MKey → String
  | .cMajor => "C_MAJOR"
  | .gMajor => "G_MAJOR"
  | .dMajor => "D_MAJOR"
  | .aMinor => "A_MINOR"
  | .eMinor => "E_MINOR"
  | .cPentatonic => "C_PENTATONIC"
  | .aBlues => "A_BLUES"

/-- The `MusicStyle` enum of `app.py`. -/
inductive MStyle
  | classical
  | folk
  | jazz
  | ambient
  | celtic
deriving DecidableEq, Repr

def styleEnumName : MStyle → String
  | .classical => "CLASSICAL"
  | .folk => "FOLK"
  | .jazz => "JAZZ"
  | .ambient => "AMBIENT"
  | .celtic => "CELTIC"

/-- `_generate_scale_notes`: three octaves of the key's scale, kept in the
MIDI range 36–96 and sorted. -/
def scaleNotesOf (key : MKey) : List ℤ :=
  let cands := [(-1 : ℤ), 0, 1].flatMap (fun oct =>
    (keyScale key).filterMap (fun degree =>
      let note := keyRoot key + oct * 12 + degree
      if 36 ≤ note ∧ note ≤ 96 then some note else none))
  List.insertionSort (fun a b => a ≤ b) cands

/-- `_create_interval_preferences`: base weights, scaled per style.  Only the
key set (the support of `random.choices`) matters to the theorems below. -/
def intervalPreferences (style : MStyle) : List (ℤ × ℚ) :=
  let base : List (ℤ × ℚ) :=
    [(1, 0.20), (2, 0.30), (3, 0.15), (4, 0.15), (5, 0.10), (7, 0.08), (12, 0.02)]
  match style with
  | .jazz => base.map (fun kv =>
      if kv.1 = 3 ∨ kv.1 = 7 then (kv.1, kv.2 * 1.5) else kv)
  | .celtic => base.map (fun kv =>
      if kv.1 = 5 then (kv.1, kv.2 * 1.8)
      else if kv.1 = 7 then (kv.1, kv.2 * 1.3) else kv)
  | .ambient => base.map (fun kv =>
      if kv.1 = 1 then (kv.1, kv.2 * 2.0)
      else if kv.1 = 2 then (kv.1, kv.2 * 1.5) else kv)
  | _ => base

/-- `_create_phrase_contour` per style. -/
def phraseContour : MStyle → List ℚ
  | .classical => [0.2, 0.4, 0.6, 0.8, 0.9, 0.7, 0.4, 0.1]
  | .folk => [0.3, 0.6, 0.4, 0.7, 0.5, 0.8, 0.3, 0.2]
  | .jazz => [0.4, 0.2, 0.8, 0.3, 0.9, 0.1, 0.6, 0.4]
  | .celtic => [0.5, 0.7, 0.3, 0.8, 0.4, 0.9, 0.2, 0.5]
  | .ambient => [0.4, 0.5, 0.6, 0.5, 0.4, 0.6, 0.5, 0.4]

/-- `_get_phrase_target`. -/
def phraseTarget (style : MStyle) (pos : ℕ) : ℚ :=
  let contour := phraseContour style
  if contour = [] then 0.5
  else contour.getD (min pos (contour.length - 1)) 0

/-- `random.choice` / `random.choices` modelled as an arbitrary draw from the
list (index `r % length`); theorems quantify over every possible draw. -/
def listChoice (l : List ℤ) (r : ℕ) : ℤ := l.getD (r % l.length) 0

/-- Python `min` over a nonempty list (junk value 0 on empty). -/
def listMinD (l : List ℤ) : ℤ :=
  match l with
  | [] => 0
  | h :: t => t.foldl min h

/-- Python `max` over a nonempty list (junk value 0 on empty). -/
def listMaxD (l : List ℤ) : ℤ :=
  match l with
  | [] => 0
  | h :: t => t.foldl max h

/-- Python `min(l, key=lambda x: abs(x - c))`: first element of `l` with
minimal distance to `c` (junk value 0 on empty). -/
def argminAbs (c : ℤ) (l : List ℤ) : ℤ :=
  match l with
  | [] => 0
  | h :: t => t.foldl (fun best x => if |x - c| < |best - c| then x else best) h

/-- The mutable state of `IntelligentMelodyGenerator`: the bounded recent-note
history, plus the position reached in the modelled random stream. -/
structure GenSt where
  recentNotes : List ℤ
  idx : ℕ
deriving DecidableEq, Repr

/-- `_choose_note_intelligently`, translated in full.  The first branch (no
history yet) returns a choice from the middle of the scale and — as in the
source — never appends to `recent_notes`, so the long second branch is
unreachable from `generate_melody`; it is embedded anyway. -/
def chooseNote (key : MKey) (style : MStyle) (rng : ℕ → ℕ) (st : GenSt)
    (sym : MSym) (phrasePos : ℕ) : ℤ × GenSt :=
  let scaleN := scaleNotesOf key
  if st.recentNotes = [] then
    let middle := scaleN.filter (fun n => keyRoot key ≤ n ∧ n ≤ keyRoot key + 7)
    (listChoice middle (rng st.idx), ⟨st.recentNotes, st.idx + 1⟩)
  else
    let currentNote := (st.recentNotes.getLast?).getD 0
    let target := phraseTarget style phrasePos
    let lo := listMinD scaleN
    let hi := listMaxD scaleN
    let height : ℚ := ((currentNote - lo : ℤ) : ℚ) / ((hi - lo : ℤ) : ℚ)
    let d0 : ℤ × ℕ :=
      if height < target - 0.2 then (1, st.idx)
      else if target + 0.2 < height then (-1, st.idx)
      else (if rng st.idx % 2 = 0 then -1 else 1, st.idx + 1)
    let d1 : ℤ × ℕ :=
      if sym = .dot then (if rng d0.2 % 10 < 3 then -1 else d0.1, d0.2 + 1)
      else if sym = .dash then (if rng d0.2 % 10 < 3 then 1 else d0.1, d0.2 + 1)
      else d0
    let dir : ℤ :=
      if 3 ≤ st.recentNotes.length then
        let c := (st.recentNotes.getLast?).getD 0
        let b := (st.recentNotes.dropLast.getLast?).getD 0
        let a := (st.recentNotes.dropLast.dropLast.getLast?).getD 0
        let recentDir : ℤ := (if a < b then 1 else -1) + (if b < c then 1 else -1)
        if 2 ≤ |recentDir| then -d1.1 else d1.1
      else d1.1
    let interval := listChoice ((intervalPreferences style).map (fun kv => kv.1)) (rng d1.2)
    let candidate := currentNote + interval * dir
    let snapped := argminAbs candidate scaleN
    let final := if snapped < lo ∨ hi < snapped then currentNote else snapped
    let newRecent0 := st.recentNotes ++ [final]
    let newRecent := if 6 < newRecent0.length then newRecent0.tail else newRecent0
    (final, ⟨newRecent, d1.2 + 1⟩)

/-- A `Note` as in `app.py` (`pitch, start_time, duration, velocity, channel`). -/
structure Note where
  pitch : ℤ
  start : ℚ
  duration : ℚ
  velocity : ℤ
  channel : ℕ := 0
deriving DecidableEq, Repr

/-- The symbol loop of `generate_melody`: dots become notes of duration 0.25,
dashes 0.75, each followed by a 0.1 gap; a letter gap adds 0.3, a word gap
adds 0.8 and resets the phrase position. -/
def genMelodyAux (key : MKey) (style : MStyle) (rng : ℕ → ℕ) :
    List MSym → GenSt → ℚ → ℕ → List Note
  | [], _, _, _ => []
  | .dot :: rest, st, t, pos =>
    let pc := chooseNote key style rng st .dot pos
    let v : ℤ := 70 + ((rng pc.2.idx % 21 : ℕ) : ℤ)
    { pitch := pc.1, start := t, duration := 0.25, velocity := v } ::
      genMelodyAux key style rng rest ⟨pc.2.recentNotes, pc.2.idx + 1⟩
        (t + (0.25 + 0.1)) (pos + 1)
  | .dash :: rest, st, t, pos =>
    let pc := chooseNote key style rng st .dash pos
    let v : ℤ := 75 + ((rng pc.2.idx % 21 : ℕ) : ℤ)
    { pitch := pc.1, start := t, duration := 0.75, velocity := v } ::
      genMelodyAux key style rng rest ⟨pc.2.recentNotes, pc.2.idx + 1⟩
        (t + (0.75 + 0.1)) (pos + 1)
  | .lsep :: rest, st, t, pos => genMelodyAux key style rng rest st (t + 0.3) pos
  | .wsep :: rest, st, t, _ => genMelodyAux key style rng rest st (t + 0.8) 0

/-- `IntelligentMelodyGenerator.generate_melody` on a message. -/
def generateMelody (key : MKey) (style : MStyle) (rng : ℕ → ℕ) (msg : List Char) :
    List Note :=
  genMelodyAux key style rng (morseSeq msg) ⟨[], 0⟩ 0 0

/-- The `(start_time, duration)` timeline of the melody track, as a function
of the symbol stream alone (pitch and velocity draws do not touch timing). -/
def melodyTimes : List MSym → ℚ → List (ℚ × ℚ)
  | [], _ => []
  | .dot :: r, t => (t, 0.25) :: melodyTimes r (t + (0.25 + 0.1))
  | .dash :: r, t => (t, 0.75) :: melodyTimes r (t + (0.75 + 0.1))
  | .lsep :: r, t => melodyTimes r (t + 0.3)
  | .wsep :: r, t => melodyTimes r (t + 0.8)

/-- Time advance contributed by one symbol in `generate_melody`. -/
def symAdv : MSym → ℚ
  | .dot => 0.25 + 0.1
  | .dash => 0.75 + 0.1
  | .lsep => 0.3
  | .wsep => 0.8

def advanceOf (S : List MSym) : ℚ := (S.map symAdv).sum

/-- `ChordProgressionGenerator._create_progressions` for the chosen style. -/
def progressionsOf (key : MKey) (style : MStyle) : List (List ℤ) :=
  let r := keyRoot key
  match style with
  | .classical =>
    [[r, r + 4, r + 7], [r + 9, r + 1, r + 4], [r + 5, r + 9, r + 0], [r + 7, r + 11, r + 2]]
  | .folk =>
    [[r, r + 4, r + 7], [r + 7, r + 11, r + 2], [r + 5, r + 9, r + 0], [r, r + 4, r + 7]]
  | .jazz =>
    [[r, r + 4, r + 7, r + 11], [r + 9, r + 1, r + 4, r + 8],
     [r + 2, r + 6, r + 9, r + 0], [r + 7, r + 11, r + 2, r + 5]]
  | .celtic =>
    [[r, r + 7], [r + 7, r + 2], [r + 5, r + 0], [r, r + 7]]
  | .ambient =>
    [[r, r + 4, r + 7, r + 11, r + 14], [r + 2, r + 6, r + 9, r + 1, r + 4],
     [r + 5, r + 9, r + 0, r + 4, r + 7], [r - 5, r - 1, r + 2, r + 6, r + 9]]

/-- `ChordProgressionGenerator.generate_harmony`: 2-beat chord windows while
time is below the melody duration (the `while` loop in closed form), each
chord rolled by 0.02 per voice, dropped an octave, on channel 1. -/
def generateHarmony (key : MKey) (style : MStyle) (hrng : ℕ → ℕ)
    (melodyDuration : ℚ) : List Note :=
  let progs := progressionsOf key style
  let numChords : ℕ := (melodyDuration / 2).ceil.toNat
  (List.range numChords).flatMap (fun k =>
    let chord := progs.getD (k % progs.length) []
    chord.enum.map (fun iv =>
      { pitch := iv.2 - 12, start := 2 * (k : ℚ) + (iv.1 : ℚ) * 0.02,
        duration := 2.0, velocity := 50 + ((hrng (k * 8 + iv.1) % 21 : ℕ) : ℤ),
        channel := 1 }))

/-- Python `max(start + duration over notes)` (junk 0 on an empty list, where
the source would raise). -/
def totalDurOf (notes : List Note) : ℚ :=
  notes.foldl (fun m n => max m (n.start + n.duration)) 0

/-- Seed string `f"{message}{key.name}{style.name}"` of `main`. -/
def seedStringOf (msg : List Char) (key : MKey) (style : MStyle) : String :=
  String.mk msg ++ keyEnumName key ++ styleEnumName style

/-- `hash(seed_string) % 1000000`, with the process's string-hash function as
an explicit parameter (CPython's string hash is salted per process). -/
def seedOf (pyHash : String → ℤ) (msg : List Char) (key : MKey) (style : MStyle) : ℤ :=
  pyHash (seedStringOf msg key style) % 1000000

/-- Python `str.strip` on a character list. -/
def stripChars (l : List Char) : List Char :=
  ((l.dropWhile (fun c => c.isWhitespace)).reverse.dropWhile
    (fun c => c.isWhitespace)).reverse

inductive AppError
  | emptyMessage
deriving DecidableEq

/-- Result of pressing the generate button. -/
inductive Outcome
  | generated (melody : List Note) (harmony : Option (List Note))
  | emptyWarning
deriving DecidableEq

/-- The generate-button flow of `main` (`app.py` lines 1458–1476): a blank
message only produces a warning; otherwise, unless "Force New Melody" is
checked, the global generator is reseeded from the salted hash of the seed
string, and melody (plus optional harmony) is generated.  `prng` maps a seed
to the modelled stream of that freshly seeded generator; `globalRng` is the
stream of whatever state the global generator had before the press. -/
def pressGenerate (pyHash : String → ℤ) (prng : ℤ → ℕ → ℕ) (regenerate : Bool)
    (globalRng : ℕ → ℕ) (msg : List Char) (key : MKey) (style : MStyle)
    (addHarmony : Bool) : Except AppError Outcome :=
  if stripChars msg ≠ [] then
    let stream := if regenerate then globalRng else prng (seedOf pyHash msg key style)
    let melody := generateMelody key style stream msg
    let harmony := if addHarmony
      then some (generateHarmony key style stream (totalDurOf melody)) else none
    Except.ok (Outcome.generated melody harmony)
  else Except.ok Outcome.emptyWarning

/-- `max(0, time + timing_variance)` of `MelodicAI.apply_humanization`. -/
def hTime (δ : ℕ → ℚ) (j : ℕ) (t : ℚ) : ℚ := max 0 (t + δ j)

/-- The melody-track emission of `morse_to_ai_enhanced_midi` with
humanization: `(start, duration)` per note, where `δ j` is the `j`-th
timing variance (uniform in ±0.02) and `μ j` the `j`-th duration factor
(uniform in 0.95–1.05).  Letter/word boundaries emit a phrase-ending note
when enough symbols were played. -/
def aiMelodyTimes (δ μ : ℕ → ℚ) : List Char → ℚ → ℕ → ℕ → List (ℚ × ℚ)
  | [], _, _, _ => []
  | c :: r, t, pos, j =>
    if c = '.' then
      (hTime δ j t, 0.25 * μ j) ::
        aiMelodyTimes δ μ r (t + (0.25 + 0.25 * 0.5)) (pos + 1) (j + 1)
    else if c = '-' then
      (hTime δ j t, 0.25 * 3 * μ j) ::
        aiMelodyTimes δ μ r (t + (0.25 * 3 + 0.25 * 0.5)) (pos + 1) (j + 1)
    else if c = ' ' then
      if 3 ≤ pos then
        (hTime δ j t, 0.25 * 0.5 * μ j) ::
          aiMelodyTimes δ μ r (t + 0.25 * 0.5 + 0.25 * 2.5) 0 (j + 1)
      else aiMelodyTimes δ μ r (t + 0.25 * 2.5) 0 j
    else if c = '/' then
      if 2 ≤ pos then
        (hTime δ j t, 0.25 * μ j) :: aiMelodyTimes δ μ r (t + 0.25 + 0.25 * 6) 0 (j + 1)
      else aiMelodyTimes δ μ r (t + 0.25 * 6) 0 j
    else aiMelodyTimes δ μ r t pos j

/-- The `SCALES` table of `enhanced_morse_music.py` (scale-type keys). -/
inductive AiScale
  | major
  | minor
  | pentatonic
  | blues
  | dorian
  | mixolydian
deriving DecidableEq, Repr

def aiIntervals : AiScale → List ℤ
  | .major => [0, 2, 4, 5, 7, 9, 11]
  | .minor => [0, 2, 3, 5, 7, 8, 10]
  | .pentatonic => [0, 2, 4, 7, 9]
  | .blues => [0, 3, 5, 6, 7, 10]
  | .dorian => [0, 2, 3, 5, 7, 9, 10]
  | .mixolydian => [0, 2, 4, 5, 7, 9, 10]

/-- `get_scale_notes`: one octave of the scale from the root. -/
def aiScaleNotes (root : ℤ) (s : AiScale) : List ℤ :=
  (aiIntervals s).map (fun i => root + i)

/-- `MelodicAI.create_extended_scale`: the scale an octave below, at, and
above the root, sorted. -/
def extendedScale (root : ℤ) (s : AiScale) : List ℤ :=
  List.insertionSort (fun a b => a ≤ b)
    ([(-12 : ℤ), 0, 12].flatMap (fun o => (aiScaleNotes root s).map (fun n => n + o)))

/-- `MelodicAI.ensure_scale_membership`: snap to the closest extended-scale
note 90% of the time, otherwise keep the chromatic candidate; the draw is
modelled by `r` (`r % 10 < 9` standing for `random.random() < 0.9`). -/
def ensureScaleMembership (root : ℤ) (s : AiScale) (r : ℕ) (note : ℤ) : ℤ :=
  let closest := argminAbs note (extendedScale root s)
  if r % 10 < 9 then closest else note

/-- The style enum of `MelodicAI` (`patterns.get(style, patterns['ballad'])`
falls back to ballad, so only these four pattern sets are reachable). -/
inductive AiStyle
  | ballad
  | folk
  | jazz
  | ambient
deriving DecidableEq, Repr

inductive AiArch
  | riseFall
  | wave
  | complexArch
  | floating
deriving DecidableEq, Repr

inductive AiDir
  | rise
  | fall
  | neutral
deriving DecidableEq, Repr

/-- `create_melodic_patterns`: the `phrase_arch` entry per style. -/
def archOf : AiStyle → AiArch
  | .ballad => .riseFall
  | .folk => .wave
  | .jazz => .complexArch
  | .ambient => .floating

/-- `create_melodic_patterns`: the `climax_position` entry per style. -/
def climaxOf : AiStyle → ℚ
  | .ballad => 0.7
  | .folk => 0.6
  | .jazz => 0.6
  | .ambient => 0.5

/-- `create_melodic_patterns`: the `tendency_tones` entry per style. -/
def tendencyOf : AiStyle → Bool
  | .ambient => false
  | _ => true

/-- `create_interval_weights`: the interval dictionary keys per style, in
insertion order (the weights shape the distribution only; the support of
`random.choices` is the whole key list, every weight being positive). -/
def intervalKeys : AiStyle → List ℤ
  | .ballad => [0, 1, 2, 3, 4, 5, 7, 8, 9]
  | .folk => [0, 1, 2, 3, 4, 5, 7]
  | .jazz => [0, 1, 2, 3, 4, 5, 7, 8, 9, 11]
  | .ambient => [0, 1, 2, 3, 4]

/-- `MelodicAI.get_phrase_target`: rise/fall around the climax for the
rise-fall arch, the sign of `sin` on the wave arch (modelled by the oracle
`sinPos`, since `math.sin` is transcendental), neutral when floating, and
two `random.random()` draws for the complex arch.  Returns the direction and
the advanced draw cursor. -/
def getPhraseTarget (st : AiStyle) (rng : ℕ → ℕ) (sinPos : ℚ → Bool)
    (progress : ℚ) (j : ℕ) : AiDir × ℕ :=
  match archOf st with
  | .riseFall => (if progress < climaxOf st then .rise else .fall, j)
  | .wave => (if sinPos progress then .rise else .fall, j)
  | .floating => (.neutral, j)
  | .complexArch =>
    if rng j % 10 < 4 then (.rise, j + 1)
    else if rng (j + 1) % 10 < 8 then (.fall, j + 2)
    else (.neutral, j + 2)

/-- `MelodicAI.choose_melodic_interval`: for a falling target the positive
intervals are negated in place before the weighted draw; then the chosen
interval is flipped to match the target direction.  (`current_note` is
unused in the source body, as here.) -/
def chooseMelodicInterval (st : AiStyle) (rng : ℕ → ℕ) (cur : ℤ) (dir : AiDir)
    (j : ℕ) : ℤ × ℕ :=
  let pool := if dir = .fall then
      (intervalKeys st).map (fun i => if 0 < i then -i else i)
    else intervalKeys st
  let chosen := listChoice pool (rng j)
  let chosen2 :=
    if dir = .fall ∧ 0 < chosen then -chosen
    else if dir = .rise ∧ chosen < 0 then -chosen
    else chosen
  (chosen2, j + 1)

/-- `MelodicAI.apply_tendency_tones`: leading-tone (degree 11) resolution to
the tonic with probability 0.6, fourth-degree (5) resolution to the third
with probability 0.4; Python `%` on the positive modulus 12 is `Int.emod`
and `//` is `Int.fdiv`. -/
def applyTendencyTones (root : ℤ) (st : AiStyle) (rng : ℕ → ℕ) (note next : ℤ)
    (j : ℕ) : ℤ × ℕ :=
  if tendencyOf st = false then (next, j)
  else
    let noteDeg := (note - root) % 12
    if noteDeg = 11 then
      if rng j % 10 < 6 then (root + Int.fdiv next 12 * 12, j + 1)
      else (next, j + 1)
    else if noteDeg = 5 then
      if rng j % 10 < 4 then (root + 4 + Int.fdiv next 12 * 12, j + 1)
      else (next, j + 1)
    else (next, j)

/-- `deque(maxlen=8).append`. -/
def pushHist (h : List ℤ) (n : ℤ) : List ℤ :=
  if h.length < 8 then h ++ [n] else h.tail ++ [n]

/-- `MelodicAI.choose_melodic_note`: with no melody history, an opening note
is drawn from `[root, root+2, root+4]` (the lower two for a dot, the upper
two for a dash) with no scale snap; otherwise an interval is chosen, tendency
tones applied, the candidate snapped by `ensure_scale_membership` and clamped
to `[root-12, root+19]`.  Afterwards a dot (resp. dash) with nonempty history
is shifted down (resp. up) two semitones with probability 0.3.  Returns the
note, the updated history and the advanced draw cursor. -/
def chooseMelodicNote (root : ℤ) (sc : AiScale) (st : AiStyle) (rng : ℕ → ℕ)
    (sinPos : ℚ → Bool) (symbol : Char) (pos : ℕ) (hist : List ℤ) (j : ℕ) :
    ℤ × List ℤ × ℕ :=
  let progress : ℚ := (pos : ℚ) / 8
  let tj := getPhraseTarget st rng sinPos progress j
  let nj : ℤ × ℕ :=
    if hist = [] then
      let opening := [root, root + 2, root + 4]
      if symbol = '.' then (listChoice (opening.take 2) (rng tj.2), tj.2 + 1)
      else (listChoice (opening.drop 1) (rng tj.2), tj.2 + 1)
    else
      let cur := hist.getLast?.getD 0
      let ij := chooseMelodicInterval st rng cur tj.1 tj.2
      let cj := applyTendencyTones root st rng cur (cur + ij.1) ij.2
      let snapped := ensureScaleMembership root sc (rng cj.2) cj.1
      (max (root - 12) (min snapped (root + 19)), cj.2 + 1)
  let fj : ℤ × ℕ :=
    if symbol = '.' ∧ 0 < hist.length then
      if rng nj.2 % 10 < 3 then (max (nj.1 - 2) (root - 12), nj.2 + 1)
      else (nj.1, nj.2 + 1)
    else if symbol = '-' ∧ 0 < hist.length then
      if rng nj.2 % 10 < 3 then (min (nj.1 + 2) (root + 19), nj.2 + 1)
      else (nj.1, nj.2 + 1)
    else (nj.1, nj.2)
  (fj.1, pushHist hist fj.1, fj.2)

/-- The legacy `morse_to_midi` timing of `src/morse_music.py`. -/
def legacyTimes : List Char → ℚ → List (ℚ × ℚ)
  | [], _ => []
  | '.' :: r, t => (t, 0.25) :: legacyTimes r (t + (0.25 + 0.25))
  | '-' :: r, t => (t, 0.25 * 3) :: legacyTimes r (t + (0.25 * 3 + 0.25))
  | ' ' :: r, t => legacyTimes r (t + 0.25 * 3)
  | '/' :: r, t => legacyTimes r (t + 0.25 * 7)
  | _ :: r, t => legacyTimes r t

/-! ## The timing decoder (`decode_midi_to_morse`, `app.py` 916–1054) -/

/-- Decoded result `(morse_display, decoded_text, confidence)`. -/
structure DecResult where
  morse : String
  text : String
  confidence : ℚ
deriving DecidableEq, Repr

/-- `notes.sort(key=lambda x: x[0])`. -/
def sortByStart (notes : List (ℚ × ℚ)) : List (ℚ × ℚ) :=
  List.insertionSort (fun a b => a.1 ≤ b.1) notes

/-- The dot threshold: `sorted_durations[len(sorted_durations) // 3]`, with
the source's (unreachable for nonempty input) guard falling back to the
first element. -/
def dotThreshold (durs : List ℚ) : ℚ :=
  let sd := List.insertionSort (fun a b => a ≤ b) durs
  if h : durs.length / 3 < sd.length then sd[durs.length / 3] else sd.headD 0

/-- One step of the gap/duration classification loop: insert a word or letter
separator according to the gap since the last note ended, then classify the
note as dot (`duration ≤ 2×threshold`) or dash. -/
def classifyStep (th : ℚ) (acc : List MSym × ℚ) (note : ℚ × ℚ) : List MSym × ℚ :=
  let gap := note.1 - acc.2
  let syms1 :=
    if th * 3 < gap then
      if acc.1 ≠ [] ∧ acc.1.getLast? ≠ some .wsep then acc.1 ++ [.wsep] else acc.1
    else if th * 1.5 < gap then
      if acc.1 ≠ [] ∧ acc.1.getLast? ≠ some .lsep ∧ acc.1.getLast? ≠ some .wsep then
        acc.1 ++ [.lsep]
      else acc.1
    else acc.1
  let noteSym := if note.2 ≤ th * 2 then MSym.dot else MSym.dash
  (syms1 ++ [noteSym], note.1 + note.2)

/-- The full classification loop over the (sorted) notes. -/
def morseSymbolsOf (th : ℚ) (notes : List (ℚ × ℚ)) : List MSym :=
  (notes.foldl (classifyStep th) ([], 0)).1

/-- Display character of a decoded symbol. -/
def symChar : MSym → Char
  | .dot => '.'
  | .dash => '-'
  | .lsep => ' '
  | .wsep => '/'

/-- First key of the table whose pattern matches (the decoder's
`for letter, pattern in MORSE_CODE.items()` loop with `break`). -/
def revLookup : List (Char × List Char) → List Char → Option Char
  | [], _ => none
  | kv :: rest, pat => if kv.2 = pat then some kv.1 else revLookup rest pat

/-- Reverse lookup of a pattern in `MORSE_CODE` (first match, else `'?'`). -/
def lookupChar (pat : List Char) : Char := (revLookup MORSE_CODE pat).getD '?'

/-- One step of the morse-to-text loop: dots/dashes extend the current
letter; a letter gap flushes it; a word gap flushes it and appends a space. -/
def parseStep (acc : List Char × List Char) (s : MSym) : List Char × List Char :=
  match s with
  | .dot => (acc.1, acc.2 ++ ['.'])
  | .dash => (acc.1, acc.2 ++ ['-'])
  | .lsep => if acc.2 ≠ [] then (acc.1 ++ [lookupChar acc.2], []) else acc
  | .wsep => ((if acc.2 ≠ [] then acc.1 ++ [lookupChar acc.2] else acc.1) ++ [' '], [])

/-- Decoded text characters: the parse loop plus the final-letter flush. -/
def decodedCharsOf (syms : List MSym) : List Char :=
  let p := syms.foldl parseStep ([], [])
  if p.2 ≠ [] then p.1 ++ [lookupChar p.2] else p.1

/-- Confidence: `((total - unknown) / max(total, 1)) * 100` over the
pre-strip decoded text when any non-space character was classified, else 0. -/
def confidenceOf (chars : List Char) : ℚ :=
  let total := (chars.filter (fun c => c ≠ ' ')).length
  let unknown := chars.count '?'
  if 0 < total then (((total : ℚ) - (unknown : ℚ)) / ((max total 1 : ℕ) : ℚ)) * 100
  else 0

/-- `decode_midi_to_morse` from the extracted `(start, duration)` note list
(the spec's §6 interface `decode(note_events)`); the enclosing `try/except`
of the source makes the Python function total, as this embedding is. -/
def decodeNotes (notes : List (ℚ × ℚ)) : DecResult :=
  if notes = [] then ⟨"", "No notes found in MIDI file", 0⟩
  else
    let sorted := sortByStart notes
    let durs := sorted.map (fun n => n.2)
    if durs.length < 2 then ⟨"", "Not enough notes to analyze", 0⟩
    else
      let th := dotThreshold durs
      let syms := morseSymbolsOf th sorted
      let chars := decodedCharsOf syms
      ⟨String.mk (syms.map symChar), String.mk (stripChars chars), confidenceOf chars⟩

/-! ## MIDI track scan of the decoder (`app.py` 928–962) -/

inductive MidiKind
  | noteOn
  | noteOff
  | meta
deriving DecidableEq, Repr

/-- A MIDI track message: delta time, kind, note number, velocity. -/
structure MidiMsg where
  dtime : ℕ
  kind : MidiKind
  note : ℕ
  velocity : ℕ
deriving DecidableEq, Repr

/-- The event scan: accumulate absolute time; `note_on` with positive
velocity is an on event, `note_off` or zero-velocity `note_on` an off
event; anything else is skipped. -/
def trackEvents : List MidiMsg → ℕ → List (Bool × ℕ × ℕ)
  | [], _ => []
  | m :: rest, t =>
    let t' := t + m.dtime
    if m.kind = .noteOn ∧ 0 < m.velocity then (true, t', m.note) :: trackEvents rest t'
    else if m.kind = .noteOff ∨ (m.kind = .noteOn ∧ m.velocity = 0) then
      (false, t', m.note) :: trackEvents rest t'
    else trackEvents rest t'

/-- The `active_notes` dictionary pass: an on event records the start time for
its note (overwriting), an off event for a recorded note emits
`(start, duration, note)` and deletes the record. -/
def pairEvents : List (Bool × ℕ × ℕ) → List (ℕ × ℕ) → List (ℕ × ℕ × ℕ)
  | [], _ => []
  | ev :: rest, active =>
    if ev.1 then
      pairEvents rest ((ev.2.2, ev.2.1) :: active.eraseP (fun kv => kv.1 == ev.2.2))
    else
      match active.find? (fun kv => kv.1 == ev.2.2) with
      | some kv =>
        (kv.2, ev.2.1 - kv.2, ev.2.2) ::
          pairEvents rest (active.eraseP (fun kv => kv.1 == ev.2.2))
      | none => pairEvents rest active

/-- The completed note-on/note-off pairs of one track. -/
def extractTrack (tr : List MidiMsg) : List (ℕ × ℕ × ℕ) :=
  pairEvents (trackEvents tr 0) []

/-- The track loop: the notes of the first track that yields any completed
pair; the `break` stops before any later track is processed. -/
def extractNotes : List (List MidiMsg) → List (ℕ × ℕ × ℕ)
  | [] => []
  | tr :: rest =>
    let ns := extractTrack tr
    if ns = [] then extractNotes rest else ns

/-! ## Normalized messages (words of supported characters) -/

/-- A character whose upper-case form is a non-space `MORSE_CODE` key
(letters `A`–`Z` in either case, digits). -/
def SuppChar (c : Char) : Prop := (patOf c.toUpper).isSome ∧ c.toUpper ≠ ' '

instance (c : Char) : Decidable (SuppChar c) :=
  inferInstanceAs (Decidable (_ ∧ _))

def WordOK (w : List Char) : Prop := w ≠ [] ∧ ∀ c ∈ w, SuppChar c

instance (w : List Char) : Decidable (WordOK w) :=
  inferInstanceAs (Decidable (_ ∧ _))

def WordsOK (ws : List (List Char)) : Prop := ws ≠ [] ∧ ∀ w ∈ ws, WordOK w

instance (ws : List (List Char)) : Decidable (WordsOK ws) :=
  inferInstanceAs (Decidable (_ ∧ _))

/-- Words joined by single spaces. -/
def joinWords : List (List Char) → List Char
  | [] => []
  | [w] => w
  | w :: ws => w ++ ' ' :: joinWords ws

def upperJoin (ws : List (List Char)) : List Char :=
  joinWords (ws.map (fun w => w.map Char.toUpper))

/-- Dot/dash symbols of one character's pattern. -/
def patSyms (c : Char) : List MSym := symsOfPattern ((patOf c.toUpper).getD [])

/-- Encoder-side symbols of one word: each letter's pattern plus letter gap. -/
def encWord (w : List Char) : List MSym :=
  w.flatMap (fun c => patSyms c ++ [.lsep])

/-- Decoder-side symbols of one word: patterns joined by letter separators. -/
def expWord (w : List Char) : List MSym :=
  match w with
  | [] => []
  | c :: cs => patSyms c ++ cs.flatMap (fun c' => MSym.lsep :: patSyms c')

/-- Decoder-side symbols of a word list: words joined by word separators. -/
def expMsg (ws : List (List Char)) : List MSym :=
  match ws with
  | [] => []
  | w :: rest => expWord w ++ rest.flatMap (fun w' => MSym.wsep :: expWord w')

/-- Durations of the note symbols of a stream (dot 0.25, dash 0.75). -/
def symDurList (S : List MSym) : List ℚ :=
  S.filterMap (fun s =>
    match s with
    | .dot => some 0.25
    | .dash => some 0.75
    | _ => none)

/-- Number of note symbols (notes the encoder will emit). -/
def noteCount (S : List MSym) : ℕ := (symDurList S).length

/-- Number of dot symbols. -/
def dotCount (S : List MSym) : ℕ := S.count .dot

/-- Encoder-side symbols of the words after the first: each is preceded by
the word gap and trailing letter gap produced by the space character. -/
def tailChunk (ws : List (List Char)) : List MSym :=
  ws.flatMap (fun w => [.wsep, .lsep] ++ encWord w)

/-- The silence between two consecutive melody notes is an intra-symbol gap
(0.1 s), a letter gap (0.4 s) or a word gap (1.5 s). -/
def GapStep (a b : ℚ × ℚ) : Prop :=
  b.1 - (a.1 + a.2) = 0.1 ∨ b.1 - (a.1 + a.2) = 0.4 ∨ b.1 - (a.1 + a.2) = 1.5

instance (a b : ℚ × ℚ) : Decidable (GapStep a b) :=
  inferInstanceAs (Decidable (_ ∨ _ ∨ _))

/-- End time of the last note of a timeline chunk. -/
def lastEndOf (l : List (ℚ × ℚ)) : Option ℚ := l.getLast?.map (fun p => p.1 + p.2)

/-- The decoded symbol list ends in a note symbol. -/
def EndsNote (l : List MSym) : Prop :=
  l.getLast? = some MSym.dot ∨ l.getLast? = some MSym.dash

/-- Text produced by the tail of the parse loop: the pending letter `c`
(whose pattern sits in the current-letter buffer), the remaining words, and
the final-letter flush. -/
def flushTail : Char → List (List Char) → List Char
  | c, [] => [c.toUpper]
  | c, w :: ws =>
    c.toUpper :: ' ' ::
      (w.dropLast.map (fun x => x.toUpper) ++ flushTail (w.getLast?.getD c) ws)

/-! ## Basic decoder lemmas -/

/-- Every unresolved `'?'` is itself a classified (non-space) character. -/
theorem count_unknown_le_total (chars : List Char) :
    chars.count '?' ≤ (chars.filter (fun c => c ≠ ' ')).length := by
  rw [List.count_eq_countP, ← List.countP_eq_length_filter]
  refine List.countP_mono_left (fun a _ h => ?_)
  simp only [beq_iff_eq] at h
  subst h
  decide

theorem confidenceOf_eq (chars : List Char) :
    confidenceOf chars =
      if 0 < (chars.filter (fun c => c ≠ ' ')).length then
        (((chars.filter (fun c => c ≠ ' ')).length : ℚ) - (chars.count '?' : ℚ)) /
          ((chars.filter (fun c => c ≠ ' ')).length : ℚ) * 100
      else 0 := by
  by_cases h : 0 < (chars.filter (fun c => c ≠ ' ')).length
  · simp only [confidenceOf, if_pos h, Nat.max_eq_left h]
  · simp only [confidenceOf, if_neg h]

theorem confidenceOf_nonneg (chars : List Char) : 0 ≤ confidenceOf chars := by
  rw [confidenceOf_eq]
  split
  · rename_i h
    have hle := count_unknown_le_total chars
    have h1 : ((chars.count '?' : ℕ) : ℚ) ≤ ((chars.filter (fun c => c ≠ ' ')).length : ℚ) := by
      exact_mod_cast hle
    apply mul_nonneg _ (by norm_num)
    apply div_nonneg (by linarith) (by positivity)
  · exact le_refl 0

theorem confidenceOf_le_100 (chars : List Char) : confidenceOf chars ≤ 100 := by
  rw [confidenceOf_eq]
  split
  · rename_i h
    set t := (chars.filter (fun c => c ≠ ' ')).length with ht
    have htq : (0 : ℚ) < (t : ℚ) := by exact_mod_cast h
    have hsub : ((t : ℚ) - (chars.count '?' : ℚ)) ≤ (t : ℚ) := by
      have : (0 : ℚ) ≤ (chars.count '?' : ℚ) := by positivity
      linarith
    have hdiv : ((t : ℚ) - (chars.count '?' : ℚ)) / (t : ℚ) ≤ 1 := by
      rw [div_le_one htq]; exact hsub
    nlinarith
  · norm_num

theorem decodeNotes_confidence_nonneg (notes : List (ℚ × ℚ)) :
    0 ≤ (decodeNotes notes).confidence := by
  unfold decodeNotes
  dsimp only
  split
  · norm_num
  · split
    · norm_num
    · exact confidenceOf_nonneg _

theorem decodeNotes_confidence_le_100 (notes : List (ℚ × ℚ)) :
    (decodeNotes notes).confidence ≤ 100 := by
  unfold decodeNotes
  dsimp only
  split
  · norm_num
  · split
    · norm_num
    · exact confidenceOf_le_100 _

/-! ## Claim theorems: C2, C3, C4 -/

/-- Claim C2, counterexample: for the two-note timeline of an encoded `"EE"`
the decoder returns confidence `100`, not a value in `[0,1]`; so the claimed
`confidence = (classified − unresolved)/classified ∈ [0,1]` is false as
stated (the code multiplies the ratio by 100). -/
theorem c2_confidence_counterexample :
    (decodeNotes [(0, 0.25), (0.65, 0.25)]).confidence = 100 ∧
    ((decodeNotes [(0, 0.25), (0.65, 0.25)]).confidence ≤ 1) = False := by
  have h : (decodeNotes [(0, 0.25), (0.65, 0.25)]).confidence = 100 := by
    norm_num +decide [decodeNotes, sortByStart, List.insertionSort, List.orderedInsert,
      dotThreshold, morseSymbolsOf, classifyStep, List.foldl, List.getLast?,
      decodedCharsOf, parseStep, lookupChar, revLookup, MORSE_CODE, confidenceOf,
      List.count_cons]
  refine ⟨h, eq_false ?_⟩
  rw [h]
  norm_num

/-- Claim C2, amended: the returned confidence is a percentage in `[0,100]`,
equal to `(classified − unresolved)/classified × 100` when any character was
classified, and `0` otherwise. -/
theorem c2_confidence_scale :
    (∀ notes : List (ℚ × ℚ),
      0 ≤ (decodeNotes notes).confidence ∧ (decodeNotes notes).confidence ≤ 100) ∧
    (∀ chars : List Char,
      confidenceOf chars =
        if 0 < (chars.filter (fun c => c ≠ ' ')).length then
          (((chars.filter (fun c => c ≠ ' ')).length : ℚ) - (chars.count '?' : ℚ)) /
            ((chars.filter (fun c => c ≠ ' ')).length : ℚ) * 100
        else 0) := by
  constructor
  · intro notes
    exact ⟨decodeNotes_confidence_nonneg notes, decodeNotes_confidence_le_100 notes⟩
  · intro chars
    exact confidenceOf_eq chars

/-- Claim C3, counterexample: for extracted notes with durations
`[0.25, 0.75, 0.75]` the decoder's dot threshold is `0.75`, the element at
index `⌊3/3⌋ = 1` of the sorted durations — not the minimum `0.25`. -/
theorem c3_threshold_counterexample :
    dotThreshold ((sortByStart [(0, 0.25), (1, 0.75), (2, 0.75)]).map (fun n => n.2)) = 0.75 ∧
    (0.25 : ℚ) ∈ ((sortByStart [(0, 0.25), (1, 0.75), (2, 0.75)]).map (fun n => n.2)) ∧
    (∀ d ∈ ((sortByStart [(0, 0.25), (1, 0.75), (2, 0.75)]).map (fun n => n.2)),
      (0.25 : ℚ) ≤ d) ∧
    (dotThreshold ((sortByStart [(0, 0.25), (1, 0.75), (2, 0.75)]).map (fun n => n.2))
      = 0.25) = False := by
  have h : dotThreshold ((sortByStart [(0, 0.25), (1, 0.75), (2, 0.75)]).map (fun n => n.2))
      = 0.75 := by
    norm_num [dotThreshold, sortByStart, List.insertionSort, List.orderedInsert]
  refine ⟨h, ?_, ?_, eq_false ?_⟩
  · norm_num [sortByStart, List.insertionSort, List.orderedInsert]
  · intro d hd
    norm_num [sortByStart, List.insertionSort, List.orderedInsert] at hd
    rcases hd with rfl | rfl <;> norm_num
  · rw [h]; norm_num

/-- Claim C3, amended: the dot threshold is the element at index `⌊n/3⌋` of
the sorted duration list — one of the extracted durations, but in general a
lower-third order statistic rather than the minimum. -/
theorem c3_threshold_order_statistic (notes : List (ℚ × ℚ)) (h : notes ≠ []) :
    dotThreshold ((sortByStart notes).map (fun n => n.2)) =
      (List.insertionSort (fun a b => a ≤ b)
        ((sortByStart notes).map (fun n => n.2))).getD
        (((sortByStart notes).map (fun n => n.2)).length / 3) 0 ∧
    dotThreshold ((sortByStart notes).map (fun n => n.2)) ∈
      (sortByStart notes).map (fun n => n.2) := by
  set durs := (sortByStart notes).map (fun n => n.2) with hdurs
  have hlen : 0 < durs.length := by
    rw [hdurs]
    simp only [List.length_map]
    unfold sortByStart
    rw [List.length_insertionSort]
    exact List.length_pos_of_ne_nil h
  have hsd : (List.insertionSort (fun a b => a ≤ b) durs).length = durs.length := by
    rw [List.length_insertionSort]
  have hidx : durs.length / 3 < (List.insertionSort (fun a b => a ≤ b) durs).length := by
    rw [hsd]
    exact Nat.div_lt_self hlen (by omega)
  constructor
  · unfold dotThreshold
    rw [dif_pos hidx]
    rw [List.getD_eq_getElem?_getD, List.getElem?_eq_getElem hidx]
    rfl
  · unfold dotThreshold
    rw [dif_pos hidx]
    have hmem : (List.insertionSort (fun a b => a ≤ b) durs)[durs.length / 3] ∈
        List.insertionSort (fun a b => a ≤ b) durs := List.getElem_mem _
    exact ((List.perm_insertionSort (fun a b => a ≤ b) durs).mem_iff).1 hmem

/-- Witness for `c3_threshold_order_statistic` at a one-note list. -/
theorem c3_threshold_order_statistic_witness :
    ([((0 : ℚ), (0.25 : ℚ))] ≠ []) ∧
    dotThreshold ((sortByStart [((0 : ℚ), (0.25 : ℚ))]).map (fun n => n.2)) ∈
      (sortByStart [((0 : ℚ), (0.25 : ℚ))]).map (fun n => n.2) :=
  ⟨List.cons_ne_nil _ _, (c3_threshold_order_statistic [((0 : ℚ), (0.25 : ℚ))]
    (List.cons_ne_nil _ _)).2⟩

/-- Claim C4: the decoder is a total function of the note list — an empty
note list yields the `NoNotesFound` diagnostic with confidence 0 (never a
crash), and every input gets a result with a well-formed confidence. -/
theorem c4_decode_never_raises :
    decodeNotes [] = ⟨"", "No notes found in MIDI file", 0⟩ ∧
    (∀ notes : List (ℚ × ℚ), 0 ≤ (decodeNotes notes).confidence ∧
      (decodeNotes notes).confidence ≤ 100) := by
  refine ⟨rfl, fun notes => ⟨decodeNotes_confidence_nonneg notes,
    decodeNotes_confidence_le_100 notes⟩⟩

/-! ## Track selection (C10) -/

theorem extractNotes_first_hit (pre : List (List MidiMsg)) (t : List MidiMsg)
    (rest : List (List MidiMsg)) (hpre : ∀ t' ∈ pre, extractTrack t' = [])
    (ht : extractTrack t ≠ []) :
    extractNotes (pre ++ t :: rest) = extractTrack t := by
  induction pre with
  | nil =>
    show extractNotes (t :: rest) = extractTrack t
    simp only [extractNotes]
    exact if_neg ht
  | cons p ps ih =>
    have hp : extractTrack p = [] := hpre p (by simp)
    show extractNotes (p :: (ps ++ t :: rest)) = extractTrack t
    simp only [extractNotes, hp, if_pos rfl]
    exact ih (fun t' h => hpre t' (by simp [h]))

/-- Claim C10: the decoder's note list comes from the first track (in file
order) that yields a completed note-on/note-off pair; every later track is
ignored, so the extraction — and hence the decoded result — depends only on
that first note-bearing track. -/
theorem c10_first_track (pre : List (List MidiMsg)) (t : List MidiMsg)
    (rest rest' : List (List MidiMsg)) (hpre : ∀ t' ∈ pre, extractTrack t' = [])
    (ht : extractTrack t ≠ []) :
    extractNotes (pre ++ t :: rest) = extractTrack t ∧
    extractNotes (pre ++ t :: rest) = extractNotes (pre ++ t :: rest') := by
  have h1 := extractNotes_first_hit pre t rest hpre ht
  have h2 := extractNotes_first_hit pre t rest' hpre ht
  exact ⟨h1, h1.trans h2.symm⟩

/-- Witness for `c10_first_track`: a note-free first track, a melody track
with one completed pair, and a differing harmony track that is ignored. -/
theorem c10_first_track_witness :
    (∀ t' ∈ [([] : List MidiMsg)], extractTrack t' = []) ∧
    extractNotes ([([] : List MidiMsg)] ++
        [⟨0, .noteOn, 60, 80⟩, ⟨4, .noteOff, 60, 0⟩] ::
        [[⟨0, .noteOn, 40, 70⟩, ⟨8, .noteOff, 40, 0⟩]]) =
      extractTrack [⟨0, .noteOn, 60, 80⟩, ⟨4, .noteOff, 60, 0⟩] :=
  ⟨by decide,
    (c10_first_track [([] : List MidiMsg)] [⟨0, .noteOn, 60, 80⟩, ⟨4, .noteOff, 60, 0⟩]
      [[⟨0, .noteOn, 40, 70⟩, ⟨8, .noteOff, 40, 0⟩]] [] (by decide) (by decide)).1⟩

/-! ## Empty-message handling (C8) -/

/-- Claim C8, counterexample: a whitespace-only message does not raise an
`EmptyMessage` error — the generate flow returns normally with a warning
outcome (and performs no generation). -/
theorem c8_empty_message_counterexample :
    pressGenerate (fun _ => 0) (fun _ _ => 0) false (fun _ => 0) [' ', ' ', ' ']
        MKey.cMajor MStyle.classical true = Except.ok Outcome.emptyWarning ∧
    (pressGenerate (fun _ => 0) (fun _ _ => 0) false (fun _ => 0) [' ', ' ', ' ']
        MKey.cMajor MStyle.classical true
      = Except.error AppError.emptyMessage) = False := by
  have h : pressGenerate (fun _ => 0) (fun _ _ => 0) false (fun _ => 0) [' ', ' ', ' ']
      MKey.cMajor MStyle.classical true = Except.ok Outcome.emptyWarning := by
    simp +decide [pressGenerate, stripChars, List.dropWhile]
  refine ⟨h, eq_false ?_⟩
  rw [h]
  simp

/-- Claim C8, amended: encoding an empty or whitespace-only message is
rejected before any melody generation begins — the app shows an
empty-message warning and returns normally, rather than raising an
exception. -/
theorem c8_empty_rejected (pyHash : String → ℤ) (prng : ℤ → ℕ → ℕ)
    (regenerate : Bool) (g : ℕ → ℕ) (msg : List Char) (key : MKey) (style : MStyle)
    (addHarmony : Bool) (h : stripChars msg = []) :
    pressGenerate pyHash prng regenerate g msg key style addHarmony =
      Except.ok Outcome.emptyWarning := by
  unfold pressGenerate
  rw [if_neg (by simp [h])]

/-- Witness for `c8_empty_rejected` at a one-space message. -/
theorem c8_empty_rejected_witness :
    stripChars [' '] = [] ∧
    pressGenerate (fun _ => 0) (fun _ _ => 0) false (fun _ => 0) [' ']
        MKey.gMajor MStyle.folk false = Except.ok Outcome.emptyWarning :=
  ⟨by decide, c8_empty_rejected (fun _ => 0) (fun _ _ => 0) false (fun _ => 0) [' ']
    MKey.gMajor MStyle.folk false (by decide)⟩

/-! ## Determinism and seeding (C5) -/

/-- Claim C5, counterexample to run-independence: the seed is
`hash(message + key.name + style.name) % 1000000` where `hash` is CPython's
per-process salted string hash, modelled as the run's hash function.  Two
admissible runs (hash functions differing on the seed string) produce
different timelines for the same message and settings, so `encode` is not
byte-identical across process restarts. -/
theorem c5_determinism_counterexample :
    (pressGenerate (fun _ => 0) (fun s _ => s.toNat) false (fun _ => 0) ['H', 'I']
        MKey.cMajor MStyle.classical false
      = pressGenerate (fun _ => 1) (fun s _ => s.toNat) false (fun _ => 0) ['H', 'I']
        MKey.cMajor MStyle.classical false) = False := by
  refine eq_false (fun heq => ?_)
  have e1 : pressGenerate (fun _ => 0) (fun s _ => s.toNat) false (fun _ => 0) ['H', 'I']
      MKey.cMajor MStyle.classical false
      = Except.ok (Outcome.generated
          (generateMelody MKey.cMajor MStyle.classical
            (fun _ => ((0 : ℤ) % 1000000).toNat) ['H', 'I']) none) := rfl
  have e2 : pressGenerate (fun _ => 1) (fun s _ => s.toNat) false (fun _ => 0) ['H', 'I']
      MKey.cMajor MStyle.classical false
      = Except.ok (Outcome.generated
          (generateMelody MKey.cMajor MStyle.classical
            (fun _ => ((1 : ℤ) % 1000000).toNat) ['H', 'I']) none) := rfl
  rw [e1, e2] at heq
  simp only [Except.ok.injEq, Outcome.generated.injEq] at heq
  have hp := congrArg (List.map Note.pitch) heq.1
  have d1 : (generateMelody MKey.cMajor MStyle.classical
      (fun _ => ((0 : ℤ) % 1000000).toNat) ['H', 'I']).map Note.pitch
      = [60, 60, 60, 60, 60, 60] := by decide
  have d2 : (generateMelody MKey.cMajor MStyle.classical
      (fun _ => ((1 : ℤ) % 1000000).toNat) ['H', 'I']).map Note.pitch
      = [62, 62, 62, 62, 62, 62] := by decide
  rw [d1, d2] at hp
  exact absurd hp (by decide)

/-- Claim C5, amended: within one process run (fixed hash function and
generator family), repeated generate presses with the same message and
settings and "Force New Melody" off give identical timelines, whatever state
the global generator was left in — each press reseeds it from the message
hash.  Across process restarts identity is not guaranteed, since the seed
comes from Python's salted built-in `hash`. -/
theorem c5_same_run_determinism (pyHash : String → ℤ) (prng : ℤ → ℕ → ℕ)
    (msg : List Char) (key : MKey) (style : MStyle) (addHarmony : Bool)
    (g g' : ℕ → ℕ) :
    pressGenerate pyHash prng false g msg key style addHarmony
      = pressGenerate pyHash prng false g' msg key style addHarmony := rfl

/-! ## Scale membership (C6) -/

theorem listChoice_mem (l : List ℤ) (r : ℕ) (h : l ≠ []) : listChoice l r ∈ l := by
  unfold listChoice
  have hlen : 0 < l.length := List.length_pos_of_ne_nil h
  have hlt : r % l.length < l.length := Nat.mod_lt _ hlen
  rw [List.getD_eq_getElem?_getD, List.getElem?_eq_getElem hlt]
  exact List.getElem_mem _

theorem middle_notes_ne_nil (key : MKey) :
    (scaleNotesOf key).filter (fun n => keyRoot key ≤ n ∧ n ≤ keyRoot key + 7) ≠ [] := by
  cases key <;> decide

theorem chooseNote_empty (key : MKey) (style : MStyle) (rng : ℕ → ℕ) (st : GenSt)
    (sym : MSym) (pos : ℕ) (h : st.recentNotes = []) :
    chooseNote key style rng st sym pos =
      (listChoice ((scaleNotesOf key).filter
          (fun n => keyRoot key ≤ n ∧ n ≤ keyRoot key + 7)) (rng st.idx),
        ⟨st.recentNotes, st.idx + 1⟩) := by
  unfold chooseNote
  rw [if_pos h]

theorem genMelodyAux_pitch_in_scale (key : MKey) (style : MStyle) (rng : ℕ → ℕ) :
    ∀ (S : List MSym) (st : GenSt) (t : ℚ) (pos : ℕ), st.recentNotes = [] →
      ∀ n ∈ genMelodyAux key style rng S st t pos, n.pitch ∈ scaleNotesOf key := by
  intro S
  induction S with
  | nil => intro st t pos _ n hn; simp [genMelodyAux] at hn
  | cons s rest ih =>
    intro st t pos hst n hn
    cases s with
    | dot =>
      rw [genMelodyAux] at hn
      rw [chooseNote_empty key style rng st .dot pos hst] at hn
      simp only [List.mem_cons] at hn
      rcases hn with rfl | hn
      · exact List.mem_of_mem_filter (listChoice_mem _ _ (middle_notes_ne_nil key))
      · exact ih ⟨st.recentNotes, st.idx + 1 + 1⟩ _ _ hst n hn
    | dash =>
      rw [genMelodyAux] at hn
      rw [chooseNote_empty key style rng st .dash pos hst] at hn
      simp only [List.mem_cons] at hn
      rcases hn with rfl | hn
      · exact List.mem_of_mem_filter (listChoice_mem _ _ (middle_notes_ne_nil key))
      · exact ih ⟨st.recentNotes, st.idx + 1 + 1⟩ _ _ hst n hn
    | lsep =>
      rw [genMelodyAux] at hn
      exact ih st _ _ hst n hn
    | wsep =>
      rw [genMelodyAux] at hn
      exact ih st _ _ hst n hn

theorem foldl_min_abs_mem (c : ℤ) :
    ∀ (t : List ℤ) (h : ℤ),
      t.foldl (fun best x => if |x - c| < |best - c| then x else best) h ∈ h :: t := by
  intro t
  induction t with
  | nil => intro h; simp
  | cons x xs ih =>
    intro h
    simp only [List.foldl_cons]
    by_cases hc : |x - c| < |h - c|
    · rw [if_pos hc]
      have := ih x
      simp only [List.mem_cons] at this ⊢
      tauto
    · rw [if_neg hc]
      have := ih h
      simp only [List.mem_cons] at this ⊢
      tauto

theorem argminAbs_mem (c : ℤ) (l : List ℤ) (h : l ≠ []) : argminAbs c l ∈ l := by
  match l with
  | [] => exact absurd rfl h
  | x :: xs =>
    unfold argminAbs
    exact foldl_min_abs_mem c xs x

theorem extendedScale_ne_nil (root : ℤ) (s : AiScale) : extendedScale root s ≠ [] := by
  unfold extendedScale
  intro hcon
  have := congrArg List.length hcon
  rw [List.length_insertionSort] at this
  cases s <;> simp [aiScaleNotes, aiIntervals] at this

theorem aiIntervals_zero_mem (s : AiScale) : (0 : ℤ) ∈ aiIntervals s := by
  cases s <;> decide

theorem aiIntervals_seven_mem (s : AiScale) : (7 : ℤ) ∈ aiIntervals s := by
  cases s <;> decide

theorem extendedScale_mem_offset (root : ℤ) (s : AiScale) {i o : ℤ}
    (hi : i ∈ aiIntervals s) (ho : o ∈ [(-12 : ℤ), 0, 12]) :
    root + i + o ∈ extendedScale root s := by
  unfold extendedScale
  rw [List.Perm.mem_iff (List.perm_insertionSort _ _), List.mem_flatMap]
  refine ⟨o, ho, ?_⟩
  rw [List.mem_map]
  refine ⟨root + i, ?_, rfl⟩
  unfold aiScaleNotes
  exact List.mem_map_of_mem _ hi

theorem extendedScale_low_mem (root : ℤ) (s : AiScale) :
    root - 12 ∈ extendedScale root s := by
  rw [show root - 12 = root + 0 + (-12) from by ring]
  exact extendedScale_mem_offset root s (aiIntervals_zero_mem s) (by decide)

theorem extendedScale_high_mem (root : ℤ) (s : AiScale) :
    root + 19 ∈ extendedScale root s := by
  rw [show root + 19 = root + 7 + 12 from by ring]
  exact extendedScale_mem_offset root s (aiIntervals_seven_mem s) (by decide)

theorem clamp_mem (root : ℤ) (s : AiScale) {x : ℤ} (hx : x ∈ extendedScale root s) :
    max (root - 12) (min x (root + 19)) ∈ extendedScale root s := by
  rcases le_total x (root + 19) with h | h
  · rw [min_eq_left h]
    rcases le_total (root - 12) x with h2 | h2
    · rw [max_eq_right h2]; exact hx
    · rw [max_eq_left h2]; exact extendedScale_low_mem root s
  · rw [min_eq_right h]
    rcases le_total (root - 12) (root + 19) with h2 | h2
    · rw [max_eq_right h2]; exact extendedScale_high_mem root s
    · rw [max_eq_left h2]; exact extendedScale_low_mem root s

theorem ensure_snap_mem (root : ℤ) (s : AiScale) (r : ℕ) (note : ℤ)
    (h : r % 10 < 9) :
    ensureScaleMembership root s r note ∈ extendedScale root s := by
  unfold ensureScaleMembership
  dsimp only
  rw [if_pos h]
  exact argminAbs_mem note _ (extendedScale_ne_nil root s)

theorem shift_keeps (rng : ℕ → ℕ) (h3 : ∀ k, 3 ≤ rng k % 10)
    (P Q : Prop) [Decidable P] [Decidable Q] (A B N : ℤ) (k : ℕ) :
    (if P then
        if rng k % 10 < 3 then (A, k + 1) else (N, k + 1)
      else if Q then
        if rng k % 10 < 3 then (B, k + 1) else (N, k + 1)
      else (N, k)).1 = N := by
  have hk := h3 k
  have hcond : ¬(rng k % 10 < 3) := by omega
  by_cases hp : P
  · rw [if_pos hp, if_neg hcond]
  · rw [if_neg hp]
    by_cases hq : Q
    · rw [if_pos hq, if_neg hcond]
    · rw [if_neg hq]

set_option maxRecDepth 4000 in
/-- Claim C6 counterexample: the enhanced engine's `choose_melodic_note`
returns out-of-scale pitches beyond the allowed 10% chromatic branch.  With
no melody history, a dash over the A-shaped blues scale rooted at 60 can
return the unsnapped opening note `root+2 = 62`, which is not in the blues
extended scale at all; and with history `[60]` over the major scale, the
30% post-snap dot adjustment shifts the snapped note 60 down to 58, which is
not in the major extended scale. -/
theorem c6_scale_counterexample :
    ((chooseMelodicNote 60 AiScale.blues AiStyle.ambient (fun _ => 0)
        (fun _ => true) '-' 0 [] 0).1 = 62 ∧
      (((62 : ℤ) ∈ extendedScale 60 AiScale.blues) = False)) ∧
    ((chooseMelodicNote 60 AiScale.major AiStyle.ambient (fun _ => 0)
        (fun _ => true) '.' 0 [60] 0).1 = 58 ∧
      (((58 : ℤ) ∈ extendedScale 60 AiScale.major) = False)) :=
  ⟨⟨by decide, eq_false (by decide)⟩, ⟨by decide, eq_false (by decide)⟩⟩

/-- Claim C6, amended: in the studio app engine every emitted pitch is in
the key's scale-note set, with no chromatic exceptions at all (the
history-driven branch of `_choose_note_intelligently` is unreachable, so
every pitch is drawn from the scale-filtered middle range).  In the enhanced
engine the `ensure_scale_membership` helper obeys its 90/10 contract —
extended-scale member or unchanged input — but `choose_melodic_note` itself
guarantees an extended-scale pitch only on the history branch when the snap
draw takes the 90% scale branch and the 30% post-snap dot/dash shift does
not fire; its unsnapped opening notes and the post-snap shift escape the
scale (see the counterexample). -/
theorem c6_scale_membership :
    (∀ (key : MKey) (style : MStyle) (rng : ℕ → ℕ) (msg : List Char),
      ∀ n ∈ generateMelody key style rng msg, n.pitch ∈ scaleNotesOf key) ∧
    (∀ (root : ℤ) (s : AiScale) (r : ℕ) (note : ℤ),
      ensureScaleMembership root s r note ∈ extendedScale root s ∨
        ensureScaleMembership root s r note = note) ∧
    (∀ (root : ℤ) (sc : AiScale) (st : AiStyle) (rng : ℕ → ℕ)
        (sinPos : ℚ → Bool) (symbol : Char) (pos : ℕ) (hist : List ℤ) (j : ℕ),
      hist ≠ [] → (∀ k, rng k % 10 < 9) → (∀ k, 3 ≤ rng k % 10) →
      (chooseMelodicNote root sc st rng sinPos symbol pos hist j).1 ∈
        extendedScale root sc) := by
  refine ⟨?_, ?_, ?_⟩
  · intro key style rng msg n hn
    exact genMelodyAux_pitch_in_scale key style rng (morseSeq msg) ⟨[], 0⟩ 0 0 rfl n hn
  · intro root s r note
    unfold ensureScaleMembership
    by_cases h : r % 10 < 9
    · rw [if_pos h]
      exact Or.inl (argminAbs_mem note _ (extendedScale_ne_nil root s))
    · rw [if_neg h]
      exact Or.inr rfl
  · intro root sc st rng sinPos symbol pos hist j hne h9 h3
    unfold chooseMelodicNote
    dsimp only
    rw [shift_keeps rng h3, if_neg hne]
    dsimp only
    exact clamp_mem root sc (ensure_snap_mem root sc _ _ (h9 _))

/-- Witness for `c6_scale_membership`: conjunct one at the first note of an
encoded `"S"` in C major; conjunct three at a dot over the major scale with
history `[60]` and a stream that always snaps and never shifts. -/
theorem c6_scale_membership_witness :
    ((60 : ℤ) ∈ scaleNotesOf MKey.cMajor) ∧
    (([(60 : ℤ)] : List ℤ) ≠ [] ∧
      (∀ k : ℕ, (fun _ : ℕ => 5) k % 10 < 9) ∧
      (∀ k : ℕ, 3 ≤ (fun _ : ℕ => 5) k % 10) ∧
      (chooseMelodicNote 60 AiScale.major AiStyle.ambient (fun _ => 5)
          (fun _ => true) '.' 0 [60] 0).1 ∈ extendedScale 60 AiScale.major) := by
  constructor
  · have hm : (60 : ℤ) ∈ (generateMelody MKey.cMajor MStyle.classical
        (fun _ => 0) ['S']).map Note.pitch := by decide
    obtain ⟨n, hn, hp⟩ := List.mem_map.1 hm
    exact hp ▸ c6_scale_membership.1 MKey.cMajor MStyle.classical (fun _ => 0) ['S'] n hn
  · refine ⟨by decide, ?_, ?_, ?_⟩
    · intro k
      show (5 : ℕ) % 10 < 9
      decide
    · intro k
      show 3 ≤ (5 : ℕ) % 10
      decide
    · refine c6_scale_membership.2.2 60 AiScale.major AiStyle.ambient (fun _ => 5)
        (fun _ => true) '.' 0 [60] 0 (by decide) ?_ ?_
      · intro k
        show (5 : ℕ) % 10 < 9
        decide
      · intro k
        show 3 ≤ (5 : ℕ) % 10
        decide

/-! ## Non-overlap of melody notes (C9) -/

theorem melodyTimes_start_lb :
    ∀ (S : List MSym) (t : ℚ), ∀ p ∈ melodyTimes S t, t ≤ p.1 := by
  intro S
  induction S with
  | nil => intro t p hp; simp [melodyTimes] at hp
  | cons s rest ih =>
    intro t p hp
    cases s with
    | dot =>
      rw [melodyTimes] at hp
      rcases List.mem_cons.1 hp with rfl | hp
      · exact le_refl t
      · have := ih _ p hp; linarith
    | dash =>
      rw [melodyTimes] at hp
      rcases List.mem_cons.1 hp with rfl | hp
      · exact le_refl t
      · have := ih _ p hp; linarith
    | lsep =>
      rw [melodyTimes] at hp
      have := ih _ p hp; linarith
    | wsep =>
      rw [melodyTimes] at hp
      have := ih _ p hp; linarith

theorem melodyTimes_pairwise :
    ∀ (S : List MSym) (t : ℚ),
      (melodyTimes S t).Pairwise (fun a b => a.1 + a.2 ≤ b.1) := by
  intro S
  induction S with
  | nil => intro t; simp [melodyTimes]
  | cons s rest ih =>
    intro t
    cases s with
    | dot =>
      rw [melodyTimes]
      refine List.Pairwise.cons (fun b hb => ?_) (ih _)
      have := melodyTimes_start_lb rest _ b hb
      show t + 0.25 ≤ b.1
      linarith
    | dash =>
      rw [melodyTimes]
      refine List.Pairwise.cons (fun b hb => ?_) (ih _)
      have := melodyTimes_start_lb rest _ b hb
      show t + 0.75 ≤ b.1
      linarith
    | lsep => rw [melodyTimes]; exact ih _
    | wsep => rw [melodyTimes]; exact ih _

/-- Pitch and velocity draws do not touch timing: the `(start, duration)`
projection of the generated melody is `melodyTimes` of the symbol stream. -/
theorem genMelodyAux_times (key : MKey) (style : MStyle) (rng : ℕ → ℕ) :
    ∀ (S : List MSym) (st : GenSt) (t : ℚ) (pos : ℕ),
      (genMelodyAux key style rng S st t pos).map (fun n => (n.start, n.duration))
        = melodyTimes S t := by
  intro S
  induction S with
  | nil => intro st t pos; rfl
  | cons s rest ih =>
    intro st t pos
    cases s with
    | dot => simp only [genMelodyAux, melodyTimes, List.map_cons, ih]
    | dash => simp only [genMelodyAux, melodyTimes, List.map_cons, ih]
    | lsep => simp only [genMelodyAux, melodyTimes, ih]
    | wsep => simp only [genMelodyAux, melodyTimes, ih]

theorem ai_step_bound (δ μ : ℕ → ℚ) (hδ : ∀ i, -0.02 ≤ δ i ∧ δ i ≤ 0.02)
    (hμ : ∀ i, 0.95 ≤ μ i ∧ μ i ≤ 1.05) (t d t' b : ℚ) (j : ℕ) (ht : 0 ≤ t)
    (hd : 0 < d) (hd17 : d ≤ 1.7) (ht' : t + d + 0.125 ≤ t') (hb : t' - 0.02 ≤ b) :
    hTime δ j t + d * μ j ≤ b := by
  have h1 : hTime δ j t ≤ t + 0.02 :=
    max_le (by linarith) (by have := (hδ j).2; linarith)
  have h2 : d * μ j ≤ d * 1.05 := by
    have := (hμ j).2
    exact mul_le_mul_of_nonneg_left this (le_of_lt hd)
  nlinarith

theorem aiMelodyTimes_start_lb (δ μ : ℕ → ℚ) (hδ : ∀ i, -0.02 ≤ δ i ∧ δ i ≤ 0.02) :
    ∀ (syms : List Char) (t : ℚ) (pos j : ℕ),
      ∀ p ∈ aiMelodyTimes δ μ syms t pos j, t - 0.02 ≤ p.1 := by
  intro syms
  induction syms with
  | nil => intro t pos j p hp; simp [aiMelodyTimes] at hp
  | cons c rest ih =>
    intro t pos j p hp
    rw [aiMelodyTimes] at hp
    have hhead : t - 0.02 ≤ hTime δ j t := by
      have := (hδ j).1
      have h2 : t + δ j ≤ hTime δ j t := le_max_right _ _
      linarith
    by_cases h1 : c = '.'
    · rw [if_pos h1] at hp
      rcases List.mem_cons.1 hp with rfl | hp
      · exact hhead
      · have := ih _ _ _ p hp; linarith
    · rw [if_neg h1] at hp
      by_cases h2 : c = '-'
      · rw [if_pos h2] at hp
        rcases List.mem_cons.1 hp with rfl | hp
        · exact hhead
        · have := ih _ _ _ p hp; linarith
      · rw [if_neg h2] at hp
        by_cases h3 : c = ' '
        · rw [if_pos h3] at hp
          by_cases h4 : 3 ≤ pos
          · rw [if_pos h4] at hp
            rcases List.mem_cons.1 hp with rfl | hp
            · exact hhead
            · have := ih _ _ _ p hp; linarith
          · rw [if_neg h4] at hp
            have := ih _ _ _ p hp; linarith
        · rw [if_neg h3] at hp
          by_cases h5 : c = '/'
          · rw [if_pos h5] at hp
            by_cases h6 : 2 ≤ pos
            · rw [if_pos h6] at hp
              rcases List.mem_cons.1 hp with rfl | hp
              · exact hhead
              · have := ih _ _ _ p hp; linarith
            · rw [if_neg h6] at hp
              have := ih _ _ _ p hp; linarith
          · rw [if_neg h5] at hp
            have := ih _ _ _ p hp; linarith

theorem aiMelodyTimes_pairwise (δ μ : ℕ → ℚ) (hδ : ∀ i, -0.02 ≤ δ i ∧ δ i ≤ 0.02)
    (hμ : ∀ i, 0.95 ≤ μ i ∧ μ i ≤ 1.05) :
    ∀ (syms : List Char) (t : ℚ) (pos j : ℕ), 0 ≤ t →
      (aiMelodyTimes δ μ syms t pos j).Pairwise (fun a b => a.1 + a.2 ≤ b.1) := by
  intro syms
  induction syms with
  | nil => intro t pos j _; simp [aiMelodyTimes]
  | cons c rest ih =>
    intro t pos j ht
    rw [aiMelodyTimes]
    by_cases h1 : c = '.'
    · rw [if_pos h1]
      refine List.Pairwise.cons (fun b hb => ?_) (ih _ _ _ (by linarith))
      have hbl := aiMelodyTimes_start_lb δ μ hδ rest _ _ _ b hb
      exact ai_step_bound δ μ hδ hμ t 0.25 (t + (0.25 + 0.25 * 0.5)) b.1 j ht
        (by norm_num) (by norm_num) (by linarith) (by linarith)
    · rw [if_neg h1]
      by_cases h2 : c = '-'
      · rw [if_pos h2]
        refine List.Pairwise.cons (fun b hb => ?_) (ih _ _ _ (by linarith))
        have hbl := aiMelodyTimes_start_lb δ μ hδ rest _ _ _ b hb
        exact ai_step_bound δ μ hδ hμ t (0.25 * 3) (t + (0.25 * 3 + 0.25 * 0.5)) b.1 j ht
          (by norm_num) (by norm_num) (by linarith) (by linarith)
      · rw [if_neg h2]
        by_cases h3 : c = ' '
        · rw [if_pos h3]
          by_cases h4 : 3 ≤ pos
          · rw [if_pos h4]
            refine List.Pairwise.cons (fun b hb => ?_) (ih _ _ _ (by linarith))
            have hbl := aiMelodyTimes_start_lb δ μ hδ rest _ _ _ b hb
            exact ai_step_bound δ μ hδ hμ t (0.25 * 0.5) (t + 0.25 * 0.5 + 0.25 * 2.5) b.1 j
              ht (by norm_num) (by norm_num) (by linarith) (by linarith)
          · rw [if_neg h4]
            exact ih _ _ _ (by linarith)
        · rw [if_neg h3]
          by_cases h5 : c = '/'
          · rw [if_pos h5]
            by_cases h6 : 2 ≤ pos
            · rw [if_pos h6]
              refine List.Pairwise.cons (fun b hb => ?_) (ih _ _ _ (by linarith))
              have hbl := aiMelodyTimes_start_lb δ μ hδ rest _ _ _ b hb
              exact ai_step_bound δ μ hδ hμ t 0.25 (t + 0.25 + 0.25 * 6) b.1 j ht
                (by norm_num) (by norm_num) (by linarith) (by linarith)
            · rw [if_neg h6]
              exact ih _ _ _ (by linarith)
          · rw [if_neg h5]
            exact ih _ _ _ ht

/-- Claim C9: melody-track notes never overlap.  For the studio encoder the
notes are strictly sequential for every message, key, style and random
stream; with humanization enabled (timing jitter within ±0.02, duration
factor within 0.95–1.05) the ai-enhanced emission also keeps all
`[start, start + duration)` intervals disjoint, for every morse string. -/
theorem c9_non_overlap :
    (∀ (key : MKey) (style : MStyle) (rng : ℕ → ℕ) (msg : List Char),
      (generateMelody key style rng msg).Pairwise
        (fun a b => a.start + a.duration ≤ b.start)) ∧
    (∀ (δ μ : ℕ → ℚ), (∀ i, -0.02 ≤ δ i ∧ δ i ≤ 0.02) →
      (∀ i, 0.95 ≤ μ i ∧ μ i ≤ 1.05) →
      ∀ (syms : List Char) (pos j : ℕ),
        (aiMelodyTimes δ μ syms 0 pos j).Pairwise (fun a b => a.1 + a.2 ≤ b.1)) := by
  constructor
  · intro key style rng msg
    have hm := melodyTimes_pairwise (morseSeq msg) 0
    rw [← genMelodyAux_times key style rng (morseSeq msg) ⟨[], 0⟩ 0 0] at hm
    exact (List.pairwise_map).1 hm
  · intro δ μ hδ hμ syms pos j
    exact aiMelodyTimes_pairwise δ μ hδ hμ syms 0 pos j (le_refl 0)

/-- Witness for `c9_non_overlap` with zero jitter on the morse of `"SOS"`. -/
theorem c9_non_overlap_witness :
    (aiMelodyTimes (fun _ => 0) (fun _ => 1)
        ['.', '.', '.', ' ', '-', '-', '-', ' ', '.', '.', '.'] 0 0 0).Pairwise
      (fun a b => a.1 + a.2 ≤ b.1) :=
  c9_non_overlap.2 (fun _ => 0) (fun _ => 1)
    (fun _ => by norm_num) (fun _ => by norm_num)
    ['.', '.', '.', ' ', '-', '-', '-', ' ', '.', '.', '.'] 0 0

/-! ## Morse-table and pattern facts -/

theorem table_pattern_chars :
    ∀ kv ∈ MORSE_CODE, kv.1 = ' ' ∨ (kv.2 ≠ [] ∧ ∀ ch ∈ kv.2, ch = '.' ∨ ch = '-') := by
  decide

theorem table_lookup_self :
    ∀ kv ∈ MORSE_CODE, kv.1 ≠ ' ' → lookupChar kv.2 = kv.1 := by
  decide

theorem table_keys_plain :
    ∀ kv ∈ MORSE_CODE, kv.1 = ' ' ∨ (kv.1 ≠ '?' ∧ kv.1.isWhitespace = false) := by
  decide

theorem assocPat_mem : ∀ (tbl : List (Char × List Char)) (c : Char) (p : List Char),
    assocPat tbl c = some p → (c, p) ∈ tbl := by
  intro tbl
  induction tbl with
  | nil => intro c p h; simp [assocPat] at h
  | cons kv rest ih =>
    intro c p h
    rw [assocPat] at h
    by_cases hc : kv.1 = c
    · rw [if_pos hc] at h
      have h2 : kv.2 = p := by injection h
      have hkv : kv = (c, p) := by
        cases kv
        simp only [Prod.mk.injEq]
        exact ⟨hc, h2⟩
      rw [hkv]
      exact List.mem_cons_self _ _
    · rw [if_neg hc] at h
      exact List.mem_cons_of_mem _ (ih c p h)

theorem suppChar_pat {c : Char} (h : SuppChar c) :
    ∃ p, patOf c.toUpper = some p ∧ (c.toUpper, p) ∈ MORSE_CODE ∧ p ≠ [] ∧
      ∀ ch ∈ p, ch = '.' ∨ ch = '-' := by
  obtain ⟨p, hp⟩ := Option.isSome_iff_exists.1 h.1
  have hmem : (c.toUpper, p) ∈ MORSE_CODE := assocPat_mem MORSE_CODE c.toUpper p hp
  rcases table_pattern_chars _ hmem with hsp | hchars
  · exact absurd hsp h.2
  · exact ⟨p, hp, hmem, hchars.1, hchars.2⟩

theorem patSyms_eq {c : Char} {p : List Char} (hp : patOf c.toUpper = some p) :
    patSyms c = p.map charSym := by
  unfold patSyms
  rw [hp]
  rfl

theorem patSyms_ne_nil {c : Char} (h : SuppChar c) : patSyms c ≠ [] := by
  obtain ⟨p, hp, _, hne, _⟩ := suppChar_pat h
  rw [patSyms_eq hp]
  simpa using hne

theorem patSyms_noterun {c : Char} (h : SuppChar c) :
    ∀ s ∈ patSyms c, s = MSym.dot ∨ s = MSym.dash := by
  obtain ⟨p, hp, _, _, hchars⟩ := suppChar_pat h
  rw [patSyms_eq hp]
  intro s hs
  obtain ⟨ch, hch, rfl⟩ := List.mem_map.1 hs
  rcases hchars ch hch with rfl | rfl
  · left; rfl
  · right; rfl

theorem lookup_patSyms {c : Char} (h : SuppChar c) :
    lookupChar ((patSyms c).map symChar) = c.toUpper := by
  obtain ⟨p, hp, hmem, _, hchars⟩ := suppChar_pat h
  rw [patSyms_eq hp, List.map_map]
  have hid : p.map (symChar ∘ charSym) = p := by
    have hpt : ∀ ch ∈ p, (symChar ∘ charSym) ch = id ch := by
      intro ch hch
      rcases hchars ch hch with rfl | rfl <;> rfl
    rw [List.map_congr_left hpt, List.map_id]
  rw [hid]
  exact table_lookup_self _ hmem h.2

theorem suppChar_upper_plain {c : Char} (h : SuppChar c) :
    c.toUpper ≠ '?' ∧ c.toUpper.isWhitespace = false := by
  obtain ⟨p, hp, hmem, _, _⟩ := suppChar_pat h
  rcases table_keys_plain _ hmem with hsp | hplain
  · exact absurd hsp h.2
  · exact hplain

/-! ## Structure of the encoder's symbol stream -/

theorem morseSeq_append (a b : List Char) :
    morseSeq (a ++ b) = morseSeq a ++ morseSeq b := by
  unfold morseSeq
  exact List.flatMap_append ..

theorem morseSeq_cons_supp {c : Char} (h : SuppChar c) (rest : List Char) :
    morseSeq (c :: rest) = (patSyms c ++ [MSym.lsep]) ++ morseSeq rest := by
  obtain ⟨p, hp, _, _, _⟩ := suppChar_pat h
  unfold morseSeq
  rw [List.flatMap_cons, hp]
  rw [patSyms_eq hp]
  rfl

theorem morseSeq_cons_space (rest : List Char) :
    morseSeq (' ' :: rest) = [MSym.wsep, MSym.lsep] ++ morseSeq rest := by
  unfold morseSeq
  rw [List.flatMap_cons]
  have hsp : patOf (' ' : Char).toUpper = some ['/'] := by decide
  rw [hsp]
  rfl

theorem morseSeq_word {w : List Char} (h : ∀ c ∈ w, SuppChar c) :
    morseSeq w = encWord w := by
  induction w with
  | nil => rfl
  | cons c cs ih =>
    rw [morseSeq_cons_supp (h c (List.mem_cons_self c cs)) cs, encWord,
      List.flatMap_cons]
    rw [ih (fun x hx => h x (List.mem_cons_of_mem _ hx))]
    rfl

theorem morseSeq_joinWords :
    ∀ (ws : List (List Char)), (∀ w ∈ ws, WordOK w) → ws ≠ [] →
      morseSeq (joinWords ws) =
        encWord ws.headI ++ tailChunk ws.tail := by
  intro ws
  induction ws with
  | nil => intro _ h; exact absurd rfl h
  | cons w rest ih =>
    intro hok _
    cases rest with
    | nil =>
      show morseSeq w = encWord w ++ tailChunk []
      rw [morseSeq_word (hok w (List.mem_cons_self w [])).2]
      simp [tailChunk]
    | cons w2 rs =>
      show morseSeq (w ++ ' ' :: joinWords (w2 :: rs)) = _
      rw [morseSeq_append, morseSeq_cons_space,
        morseSeq_word (hok w (List.mem_cons_self w _)).2]
      rw [ih (fun x hx => hok x (List.mem_cons_of_mem _ hx)) (List.cons_ne_nil _ _)]
      show encWord w ++ ([MSym.wsep, MSym.lsep] ++ (encWord w2 ++ tailChunk rs)) =
        encWord w ++ tailChunk (w2 :: rs)
      have htc : tailChunk (w2 :: rs) = [MSym.wsep, MSym.lsep] ++ (encWord w2 ++ tailChunk rs) := by
        show tailChunk (w2 :: rs) = [MSym.wsep, MSym.lsep] ++ encWord w2 ++ tailChunk rs
        rfl
      rw [htc]

/-! ## Timeline algebra -/

theorem advanceOf_nil : advanceOf [] = 0 := rfl

theorem advanceOf_cons (s : MSym) (S : List MSym) :
    advanceOf (s :: S) = symAdv s + advanceOf S := by
  unfold advanceOf
  rw [List.map_cons, List.sum_cons]

theorem advanceOf_append (A B : List MSym) :
    advanceOf (A ++ B) = advanceOf A + advanceOf B := by
  unfold advanceOf
  rw [List.map_append, List.sum_append]

theorem melodyTimes_append (A B : List MSym) (t : ℚ) :
    melodyTimes (A ++ B) t = melodyTimes A t ++ melodyTimes B (t + advanceOf A) := by
  induction A generalizing t with
  | nil => simp [melodyTimes, advanceOf_nil]
  | cons s A' ih =>
    cases s with
    | dot =>
      rw [List.cons_append, melodyTimes, melodyTimes, ih, advanceOf_cons]
      have h1 : t + (0.25 + 0.1) + advanceOf A' = t + (symAdv MSym.dot + advanceOf A') := by
        show t + (0.25 + 0.1) + advanceOf A' = t + ((0.25 + 0.1) + advanceOf A')
        ring
      rw [h1]
      rfl
    | dash =>
      rw [List.cons_append, melodyTimes, melodyTimes, ih, advanceOf_cons]
      have h1 : t + (0.75 + 0.1) + advanceOf A' = t + (symAdv MSym.dash + advanceOf A') := by
        show t + (0.75 + 0.1) + advanceOf A' = t + ((0.75 + 0.1) + advanceOf A')
        ring
      rw [h1]
      rfl
    | lsep =>
      rw [List.cons_append, melodyTimes, melodyTimes, ih, advanceOf_cons]
      have : t + 0.3 + advanceOf A' = t + (symAdv MSym.lsep + advanceOf A') := by
        show t + 0.3 + advanceOf A' = t + (0.3 + advanceOf A')
        ring
      rw [this]
    | wsep =>
      rw [List.cons_append, melodyTimes, melodyTimes, ih, advanceOf_cons]
      have : t + 0.8 + advanceOf A' = t + (symAdv MSym.wsep + advanceOf A') := by
        show t + 0.8 + advanceOf A' = t + (0.8 + advanceOf A')
        ring
      rw [this]

theorem melodyTimes_map_snd :
    ∀ (S : List MSym) (t : ℚ), (melodyTimes S t).map (fun p => p.2) = symDurList S := by
  intro S
  induction S with
  | nil => intro t; rfl
  | cons s rest ih =>
    intro t
    cases s with
    | dot => rw [melodyTimes, List.map_cons, ih]; rfl
    | dash => rw [melodyTimes, List.map_cons, ih]; rfl
    | lsep => rw [melodyTimes, ih]; rfl
    | wsep => rw [melodyTimes, ih]; rfl

theorem melodyTimes_length (S : List MSym) (t : ℚ) :
    (melodyTimes S t).length = noteCount S := by
  have := congrArg List.length (melodyTimes_map_snd S t)
  rwa [List.length_map] at this

theorem symDurList_values :
    ∀ (S : List MSym), ∀ d ∈ symDurList S, d = 0.25 ∨ d = 0.75 := by
  intro S
  induction S with
  | nil => intro d hd; simp [symDurList] at hd
  | cons s rest ih =>
    intro d hd
    cases s with
    | dot =>
      rcases List.mem_cons.1 hd with rfl | hd
      · left; rfl
      · exact ih d hd
    | dash =>
      rcases List.mem_cons.1 hd with rfl | hd
      · right; rfl
      · exact ih d hd
    | lsep => exact ih d hd
    | wsep => exact ih d hd

theorem symDurList_count (S : List MSym) :
    (symDurList S).count 0.25 = dotCount S := by
  induction S with
  | nil => rfl
  | cons s rest ih =>
    cases s with
    | dot =>
      show List.count 0.25 ((0.25 : ℚ) :: symDurList rest) = List.count MSym.dot (MSym.dot :: rest)
      rw [List.count_cons_self, List.count_cons_self, ih]
      rfl
    | dash =>
      show List.count 0.25 ((0.75 : ℚ) :: symDurList rest) = List.count MSym.dot (MSym.dash :: rest)
      rw [List.count_cons_of_ne (by norm_num), List.count_cons_of_ne (by simp), ih]
      rfl
    | lsep =>
      show List.count 0.25 (symDurList rest) = List.count MSym.dot (MSym.lsep :: rest)
      rw [List.count_cons_of_ne (by simp), ih]
      rfl
    | wsep =>
      show List.count 0.25 (symDurList rest) = List.count MSym.dot (MSym.wsep :: rest)
      rw [List.count_cons_of_ne (by simp), ih]
      rfl

theorem melodyTimes_sorted_start :
    ∀ (S : List MSym) (t : ℚ),
      (melodyTimes S t).Pairwise (fun a b => a.1 ≤ b.1) := by
  intro S
  induction S with
  | nil => intro t; simp [melodyTimes]
  | cons s rest ih =>
    intro t
    cases s with
    | dot =>
      rw [melodyTimes]
      refine List.Pairwise.cons (fun b hb => ?_) (ih _)
      have := melodyTimes_start_lb rest _ b hb
      show t ≤ b.1
      linarith
    | dash =>
      rw [melodyTimes]
      refine List.Pairwise.cons (fun b hb => ?_) (ih _)
      have := melodyTimes_start_lb rest _ b hb
      show t ≤ b.1
      linarith
    | lsep => rw [melodyTimes]; exact ih _
    | wsep => rw [melodyTimes]; exact ih _

theorem sortByStart_melodyTimes (S : List MSym) (t : ℚ) :
    sortByStart (melodyTimes S t) = melodyTimes S t :=
  List.Sorted.insertionSort_eq (melodyTimes_sorted_start S t)

/-! ## The dot threshold for dot-heavy streams -/

theorem sorted_replicate (n : ℕ) (q : ℚ) :
    (List.replicate n q).Sorted (fun a b => a ≤ b) := by
  induction n with
  | zero => simp
  | succ k ih =>
    rw [List.replicate_succ]
    exact List.Pairwise.cons
      (fun b hb => le_of_eq (List.eq_of_mem_replicate hb).symm) ih

theorem two_value_perm :
    ∀ (l : List ℚ), (∀ x ∈ l, x = 0.25 ∨ x = 0.75) →
      List.Perm l (List.replicate (l.count 0.25) 0.25 ++
        List.replicate (l.length - l.count 0.25) 0.75) := by
  intro l
  induction l with
  | nil => intro _; simp
  | cons x l' ih =>
    intro hv
    have hperm := ih (fun y hy => hv y (List.mem_cons_of_mem _ hy))
    have hcle : l'.count 0.25 ≤ l'.length := List.count_le_length ..
    rcases hv x (List.mem_cons_self x l') with rfl | rfl
    · rw [List.count_cons_self, List.length_cons]
      have hsub : l'.length + 1 - (l'.count 0.25 + 1) = l'.length - l'.count 0.25 := by
        omega
      rw [hsub, List.replicate_succ, List.cons_append]
      exact List.Perm.cons _ hperm
    · rw [List.count_cons_of_ne (by norm_num), List.length_cons]
      have hsub : l'.length + 1 - l'.count 0.25 = (l'.length - l'.count 0.25) + 1 := by
        omega
      rw [hsub, List.replicate_succ]
      refine List.Perm.trans (List.Perm.cons _ hperm) ?_
      exact List.perm_middle.symm

theorem sorted_two_value (l : List ℚ) (hv : ∀ x ∈ l, x = 0.25 ∨ x = 0.75) :
    List.insertionSort (fun a b => a ≤ b) l =
      List.replicate (l.count 0.25) 0.25 ++
        List.replicate (l.length - l.count 0.25) 0.75 := by
  refine List.eq_of_perm_of_sorted ?_ (List.sorted_insertionSort _ l) ?_
  · exact List.Perm.trans (List.perm_insertionSort _ l) (two_value_perm l hv)
  · exact List.pairwise_append.2 ⟨sorted_replicate _ _, sorted_replicate _ _,
      fun a ha b hb => by
        rw [List.eq_of_mem_replicate ha, List.eq_of_mem_replicate hb]; norm_num⟩

theorem dotThreshold_of_dots (S : List MSym) (h2 : 2 ≤ noteCount S)
    (hd : noteCount S / 3 < dotCount S) :
    dotThreshold (symDurList S) = 0.25 := by
  have hn : (symDurList S).length = noteCount S := rfl
  have hsort := sorted_two_value (symDurList S) (symDurList_values S)
  have hcount := symDurList_count S
  unfold dotThreshold
  rw [dif_pos ?hguard]
  case hguard =>
    rw [List.length_insertionSort]
    exact Nat.div_lt_self (by omega) (by omega)
  have hidx2 : (symDurList S).length / 3 < (List.replicate ((symDurList S).count 0.25)
      (0.25 : ℚ)).length := by
    rw [List.length_replicate, hcount, hn]
    exact hd
  rw [List.getElem_of_eq hsort, List.getElem_append_left hidx2, List.getElem_replicate]

/-! ## Classification steps at threshold 0.25 -/

theorem step_no_sep (acc : List MSym) (last t dur : ℚ) (h : t - last ≤ 0.375) :
    classifyStep 0.25 (acc, last) (t, dur) =
      (acc ++ [if dur ≤ 0.25 * 2 then MSym.dot else MSym.dash], t + dur) := by
  unfold classifyStep
  dsimp only
  rw [if_neg (by rw [not_lt]; linarith), if_neg (by rw [not_lt]; linarith)]

theorem ends_note_facts {acc : List MSym} (hend : EndsNote acc) :
    acc ≠ [] ∧ acc.getLast? ≠ some MSym.lsep ∧ acc.getLast? ≠ some MSym.wsep := by
  rcases hend with h | h <;>
    exact ⟨fun heq => by rw [heq] at h; simp at h,
      by rw [h]; simp, by rw [h]; simp⟩

theorem step_lsep (acc : List MSym) (last t dur : ℚ) (h1 : 0.375 < t - last)
    (h2 : t - last ≤ 0.75) (hend : EndsNote acc) :
    classifyStep 0.25 (acc, last) (t, dur) =
      ((acc ++ [MSym.lsep]) ++ [if dur ≤ 0.25 * 2 then MSym.dot else MSym.dash],
        t + dur) := by
  obtain ⟨hne, hl, hw⟩ := ends_note_facts hend
  unfold classifyStep
  dsimp only
  rw [if_neg (by rw [not_lt]; linarith), if_pos (by linarith), if_pos ⟨hne, hl, hw⟩]

theorem step_wsep (acc : List MSym) (last t dur : ℚ) (h1 : 0.75 < t - last)
    (hend : EndsNote acc) :
    classifyStep 0.25 (acc, last) (t, dur) =
      ((acc ++ [MSym.wsep]) ++ [if dur ≤ 0.25 * 2 then MSym.dot else MSym.dash],
        t + dur) := by
  obtain ⟨hne, _, hw⟩ := ends_note_facts hend
  unfold classifyStep
  dsimp only
  rw [if_pos (by linarith), if_pos ⟨hne, hw⟩]

theorem run_fold :
    ∀ (ps : List MSym), (∀ s ∈ ps, s = MSym.dot ∨ s = MSym.dash) →
      ∀ (acc : List MSym) (last t : ℚ), t - last ≤ 0.375 →
        List.foldl (classifyStep 0.25) (acc, last) (melodyTimes ps t) =
          (acc ++ ps, if ps = [] then last else t + advanceOf ps - 0.1) := by
  intro ps
  induction ps with
  | nil => intro _ acc last t _; simp [melodyTimes]
  | cons s ps' ih =>
    intro hns acc last t hgap
    have hns' : ∀ x ∈ ps', x = MSym.dot ∨ x = MSym.dash :=
      fun x hx => hns x (List.mem_cons_of_mem _ hx)
    rcases hns s (List.mem_cons_self _ _) with rfl | rfl
    · rw [melodyTimes, List.foldl_cons, step_no_sep acc last t 0.25 hgap,
        if_pos (by norm_num),
        ih hns' (acc ++ [MSym.dot]) (t + 0.25) (t + (0.25 + 0.1)) (by linarith),
        if_neg (List.cons_ne_nil _ _), advanceOf_cons]
      by_cases hps : ps' = []
      · subst hps
        rw [if_pos rfl, Prod.mk.injEq]
        refine ⟨by simp, ?_⟩
        rw [advanceOf_nil]
        show t + 0.25 = t + (0.25 + 0.1 + 0) - 0.1
        ring
      · rw [if_neg hps, Prod.mk.injEq]
        refine ⟨by simp, ?_⟩
        show t + (0.25 + 0.1) + advanceOf ps' - 0.1 =
          t + (0.25 + 0.1 + advanceOf ps') - 0.1
        ring
    · rw [melodyTimes, List.foldl_cons, step_no_sep acc last t 0.75 hgap,
        if_neg (by norm_num),
        ih hns' (acc ++ [MSym.dash]) (t + 0.75) (t + (0.75 + 0.1)) (by linarith),
        if_neg (List.cons_ne_nil _ _), advanceOf_cons]
      by_cases hps : ps' = []
      · subst hps
        rw [if_pos rfl, Prod.mk.injEq]
        refine ⟨by simp, ?_⟩
        rw [advanceOf_nil]
        show t + 0.75 = t + (0.75 + 0.1 + 0) - 0.1
        ring
      · rw [if_neg hps, Prod.mk.injEq]
        refine ⟨by simp, ?_⟩
        show t + (0.75 + 0.1) + advanceOf ps' - 0.1 =
          t + (0.75 + 0.1 + advanceOf ps') - 0.1
        ring

theorem ends_note_append (pre ps : List MSym) (hne : ps ≠ [])
    (hns : ∀ s ∈ ps, s = MSym.dot ∨ s = MSym.dash) : EndsNote (pre ++ ps) := by
  unfold EndsNote
  rw [List.getLast?_append_of_ne_nil pre hne]
  rw [List.getLast?_eq_getLast ps hne]
  rcases hns (ps.getLast hne) (List.getLast_mem hne) with h | h
  · left; rw [h]
  · right; rw [h]

theorem letter_sep_fold {c : Char} (hc : SuppChar c) (acc : List MSym) (last t : ℚ)
    (hend : EndsNote acc) (hgap : t - last = 0.4) :
    List.foldl (classifyStep 0.25) (acc, last) (melodyTimes (patSyms c) t) =
      (acc ++ MSym.lsep :: patSyms c, t + advanceOf (patSyms c) - 0.1) := by
  have hns := patSyms_noterun hc
  cases hps : patSyms c with
  | nil => exact absurd hps (patSyms_ne_nil hc)
  | cons s0 ptail =>
    rw [hps] at hns
    have hns' : ∀ x ∈ ptail, x = MSym.dot ∨ x = MSym.dash :=
      fun x hx => hns x (List.mem_cons_of_mem _ hx)
    rcases hns s0 (List.mem_cons_self _ _) with rfl | rfl
    · rw [melodyTimes, List.foldl_cons,
        step_lsep acc last t 0.25 (by linarith) (by linarith) hend,
        if_pos (by norm_num),
        run_fold ptail hns' ((acc ++ [MSym.lsep]) ++ [MSym.dot]) (t + 0.25)
          (t + (0.25 + 0.1)) (by linarith), advanceOf_cons]
      by_cases hpt : ptail = []
      · subst hpt
        rw [if_pos rfl, Prod.mk.injEq]
        refine ⟨by simp, ?_⟩
        rw [advanceOf_nil]
        show t + 0.25 = t + (0.25 + 0.1 + 0) - 0.1
        ring
      · rw [if_neg hpt, Prod.mk.injEq]
        refine ⟨by simp, ?_⟩
        show t + (0.25 + 0.1) + advanceOf ptail - 0.1 =
          t + (0.25 + 0.1 + advanceOf ptail) - 0.1
        ring
    · rw [melodyTimes, List.foldl_cons,
        step_lsep acc last t 0.75 (by linarith) (by linarith) hend,
        if_neg (by norm_num),
        run_fold ptail hns' ((acc ++ [MSym.lsep]) ++ [MSym.dash]) (t + 0.75)
          (t + (0.75 + 0.1)) (by linarith), advanceOf_cons]
      by_cases hpt : ptail = []
      · subst hpt
        rw [if_pos rfl, Prod.mk.injEq]
        refine ⟨by simp, ?_⟩
        rw [advanceOf_nil]
        show t + 0.75 = t + (0.75 + 0.1 + 0) - 0.1
        ring
      · rw [if_neg hpt, Prod.mk.injEq]
        refine ⟨by simp, ?_⟩
        show t + (0.75 + 0.1) + advanceOf ptail - 0.1 =
          t + (0.75 + 0.1 + advanceOf ptail) - 0.1
        ring

theorem letter_wsep_fold {c : Char} (hc : SuppChar c) (acc : List MSym) (last t : ℚ)
    (hend : EndsNote acc) (hgap : t - last = 1.5) :
    List.foldl (classifyStep 0.25) (acc, last) (melodyTimes (patSyms c) t) =
      (acc ++ MSym.wsep :: patSyms c, t + advanceOf (patSyms c) - 0.1) := by
  have hns := patSyms_noterun hc
  cases hps : patSyms c with
  | nil => exact absurd hps (patSyms_ne_nil hc)
  | cons s0 ptail =>
    rw [hps] at hns
    have hns' : ∀ x ∈ ptail, x = MSym.dot ∨ x = MSym.dash :=
      fun x hx => hns x (List.mem_cons_of_mem _ hx)
    rcases hns s0 (List.mem_cons_self _ _) with rfl | rfl
    · rw [melodyTimes, List.foldl_cons,
        step_wsep acc last t 0.25 (by linarith) hend,
        if_pos (by norm_num),
        run_fold ptail hns' ((acc ++ [MSym.wsep]) ++ [MSym.dot]) (t + 0.25)
          (t + (0.25 + 0.1)) (by linarith), advanceOf_cons]
      by_cases hpt : ptail = []
      · subst hpt
        rw [if_pos rfl, Prod.mk.injEq]
        refine ⟨by simp, ?_⟩
        rw [advanceOf_nil]
        show t + 0.25 = t + (0.25 + 0.1 + 0) - 0.1
        ring
      · rw [if_neg hpt, Prod.mk.injEq]
        refine ⟨by simp, ?_⟩
        show t + (0.25 + 0.1) + advanceOf ptail - 0.1 =
          t + (0.25 + 0.1 + advanceOf ptail) - 0.1
        ring
    · rw [melodyTimes, List.foldl_cons,
        step_wsep acc last t 0.75 (by linarith) hend,
        if_neg (by norm_num),
        run_fold ptail hns' ((acc ++ [MSym.wsep]) ++ [MSym.dash]) (t + 0.75)
          (t + (0.75 + 0.1)) (by linarith), advanceOf_cons]
      by_cases hpt : ptail = []
      · subst hpt
        rw [if_pos rfl, Prod.mk.injEq]
        refine ⟨by simp, ?_⟩
        rw [advanceOf_nil]
        show t + 0.75 = t + (0.75 + 0.1 + 0) - 0.1
        ring
      · rw [if_neg hpt, Prod.mk.injEq]
        refine ⟨by simp, ?_⟩
        show t + (0.75 + 0.1) + advanceOf ptail - 0.1 =
          t + (0.75 + 0.1 + advanceOf ptail) - 0.1
        ring

theorem encWord_cons (c : Char) (cs : List Char) :
    encWord (c :: cs) = (patSyms c ++ [MSym.lsep]) ++ encWord cs := by
  unfold encWord
  rw [List.flatMap_cons, List.append_assoc]

theorem adv_letter (c : Char) :
    advanceOf (patSyms c ++ [MSym.lsep]) = advanceOf (patSyms c) + 0.3 := by
  rw [advanceOf_append, advanceOf_cons, advanceOf_nil]
  show advanceOf (patSyms c) + (0.3 + 0) = advanceOf (patSyms c) + 0.3
  ring

theorem melodyTimes_letter (c : Char) (t : ℚ) :
    melodyTimes (patSyms c ++ [MSym.lsep]) t = melodyTimes (patSyms c) t := by
  rw [melodyTimes_append]
  show melodyTimes (patSyms c) t ++ melodyTimes [] (t + advanceOf (patSyms c) + 0.3) = _
  rw [melodyTimes]
  exact List.append_nil _

theorem wordRest_fold :
    ∀ (cs : List Char), (∀ x ∈ cs, SuppChar x) →
      ∀ (acc : List MSym) (last t : ℚ), EndsNote acc → t - last = 0.4 →
        List.foldl (classifyStep 0.25) (acc, last) (melodyTimes (encWord cs) t) =
          (acc ++ cs.flatMap (fun c => MSym.lsep :: patSyms c),
            if cs = [] then last else t + advanceOf (encWord cs) - 0.4) := by
  intro cs
  induction cs with
  | nil =>
    intro _ acc last t _ _
    show List.foldl (classifyStep 0.25) (acc, last) (melodyTimes [] t) = _
    rw [melodyTimes]
    simp
  | cons c cs' ih =>
    intro hsup acc last t hend hgap
    have hc : SuppChar c := hsup c (List.mem_cons_self _ _)
    have hsup' : ∀ x ∈ cs', SuppChar x := fun x hx => hsup x (List.mem_cons_of_mem _ hx)
    have hadv : advanceOf (encWord (c :: cs')) =
        advanceOf (patSyms c) + 0.3 + advanceOf (encWord cs') := by
      rw [encWord_cons, advanceOf_append, adv_letter]
    rw [hadv, encWord_cons, melodyTimes_append, melodyTimes_letter, List.foldl_append,
      letter_sep_fold hc acc last t hend hgap, adv_letter,
      ih hsup' (acc ++ MSym.lsep :: patSyms c) (t + advanceOf (patSyms c) - 0.1)
        (t + (advanceOf (patSyms c) + 0.3)) ?hend2 (by ring)]
    case hend2 =>
      have heq : acc ++ MSym.lsep :: patSyms c = (acc ++ [MSym.lsep]) ++ patSyms c := by
        simp [List.append_assoc]
      rw [heq]
      exact ends_note_append _ _ (patSyms_ne_nil hc) (patSyms_noterun hc)
    rw [if_neg (List.cons_ne_nil _ _)]
    by_cases hcs : cs' = []
    · subst hcs
      rw [if_pos rfl, Prod.mk.injEq]
      refine ⟨by simp [List.append_assoc], ?_⟩
      show t + advanceOf (patSyms c) - 0.1 =
        t + (advanceOf (patSyms c) + 0.3 + advanceOf (encWord [])) - 0.4
      show t + advanceOf (patSyms c) - 0.1 =
        t + (advanceOf (patSyms c) + 0.3 + advanceOf []) - 0.4
      rw [advanceOf_nil]
      ring
    · rw [if_neg hcs, Prod.mk.injEq]
      refine ⟨by simp [List.append_assoc], ?_⟩
      ring

theorem word_fold_first {w : List Char} (hw : WordOK w) (acc : List MSym)
    (last t : ℚ) (hgap : t - last ≤ 0.375) :
    List.foldl (classifyStep 0.25) (acc, last) (melodyTimes (encWord w) t) =
      (acc ++ expWord w, t + advanceOf (encWord w) - 0.4) := by
  obtain ⟨hne, hsup⟩ := hw
  cases w with
  | nil => exact absurd rfl hne
  | cons c cs =>
    have hc : SuppChar c := hsup c (List.mem_cons_self _ _)
    have hsup' : ∀ x ∈ cs, SuppChar x := fun x hx => hsup x (List.mem_cons_of_mem _ hx)
    have hadv : advanceOf (encWord (c :: cs)) =
        advanceOf (patSyms c) + 0.3 + advanceOf (encWord cs) := by
      rw [encWord_cons, advanceOf_append, adv_letter]
    have hexp : expWord (c :: cs) =
        patSyms c ++ cs.flatMap (fun c' => MSym.lsep :: patSyms c') := rfl
    rw [hadv, hexp, encWord_cons, melodyTimes_append, melodyTimes_letter,
      List.foldl_append,
      run_fold (patSyms c) (patSyms_noterun hc) acc last t hgap,
      if_neg (patSyms_ne_nil hc), adv_letter,
      wordRest_fold cs hsup' (acc ++ patSyms c) (t + advanceOf (patSyms c) - 0.1)
        (t + (advanceOf (patSyms c) + 0.3))
        (ends_note_append acc _ (patSyms_ne_nil hc) (patSyms_noterun hc)) (by ring)]
    by_cases hcs : cs = []
    · subst hcs
      rw [if_pos rfl, Prod.mk.injEq]
      refine ⟨by simp [List.append_assoc], ?_⟩
      show t + advanceOf (patSyms c) - 0.1 =
        t + (advanceOf (patSyms c) + 0.3 + advanceOf (encWord [])) - 0.4
      show t + advanceOf (patSyms c) - 0.1 =
        t + (advanceOf (patSyms c) + 0.3 + advanceOf []) - 0.4
      rw [advanceOf_nil]
      ring
    · rw [if_neg hcs, Prod.mk.injEq]
      refine ⟨by simp [List.append_assoc], ?_⟩
      ring

theorem word_fold_after {w : List Char} (hw : WordOK w) (acc : List MSym)
    (last t : ℚ) (hend : EndsNote acc) (hgap : t - last = 1.5) :
    List.foldl (classifyStep 0.25) (acc, last) (melodyTimes (encWord w) t) =
      (acc ++ MSym.wsep :: expWord w, t + advanceOf (encWord w) - 0.4) := by
  obtain ⟨hne, hsup⟩ := hw
  cases w with
  | nil => exact absurd rfl hne
  | cons c cs =>
    have hc : SuppChar c := hsup c (List.mem_cons_self _ _)
    have hsup' : ∀ x ∈ cs, SuppChar x := fun x hx => hsup x (List.mem_cons_of_mem _ hx)
    have hadv : advanceOf (encWord (c :: cs)) =
        advanceOf (patSyms c) + 0.3 + advanceOf (encWord cs) := by
      rw [encWord_cons, advanceOf_append, adv_letter]
    have hexp : expWord (c :: cs) =
        patSyms c ++ cs.flatMap (fun c' => MSym.lsep :: patSyms c') := rfl
    rw [hadv, hexp, encWord_cons, melodyTimes_append, melodyTimes_letter,
      List.foldl_append,
      letter_wsep_fold hc acc last t hend hgap, adv_letter,
      wordRest_fold cs hsup' (acc ++ MSym.wsep :: patSyms c)
        (t + advanceOf (patSyms c) - 0.1) (t + (advanceOf (patSyms c) + 0.3))
        ?hend2 (by ring)]
    case hend2 =>
      have heq : acc ++ MSym.wsep :: patSyms c = (acc ++ [MSym.wsep]) ++ patSyms c := by
        simp [List.append_assoc]
      rw [heq]
      exact ends_note_append _ _ (patSyms_ne_nil hc) (patSyms_noterun hc)
    by_cases hcs : cs = []
    · subst hcs
      rw [if_pos rfl, Prod.mk.injEq]
      refine ⟨by simp [List.append_assoc], ?_⟩
      show t + advanceOf (patSyms c) - 0.1 =
        t + (advanceOf (patSyms c) + 0.3 + advanceOf (encWord [])) - 0.4
      show t + advanceOf (patSyms c) - 0.1 =
        t + (advanceOf (patSyms c) + 0.3 + advanceOf []) - 0.4
      rw [advanceOf_nil]
      ring
    · rw [if_neg hcs, Prod.mk.injEq]
      refine ⟨by simp [List.append_assoc], ?_⟩
      ring

theorem tailChunk_cons (w : List Char) (ws : List (List Char)) :
    tailChunk (w :: ws) = ([MSym.wsep, MSym.lsep] ++ encWord w) ++ tailChunk ws := by
  unfold tailChunk
  rw [List.flatMap_cons]

theorem ends_note_word_shape :
    ∀ (cs : List Char) (c : Char) (pre : List MSym), SuppChar c →
      (∀ x ∈ cs, SuppChar x) →
      EndsNote (pre ++ (patSyms c ++ cs.flatMap (fun c' => MSym.lsep :: patSyms c'))) := by
  intro cs
  induction cs with
  | nil =>
    intro c pre hc _
    rw [List.flatMap_nil, List.append_nil]
    exact ends_note_append pre _ (patSyms_ne_nil hc) (patSyms_noterun hc)
  | cons c' cs' ih =>
    intro c pre hc hsup
    have heq : pre ++ (patSyms c ++ (c' :: cs').flatMap (fun x => MSym.lsep :: patSyms x))
        = (pre ++ patSyms c ++ [MSym.lsep]) ++
          (patSyms c' ++ cs'.flatMap (fun x => MSym.lsep :: patSyms x)) := by
      rw [List.flatMap_cons]
      simp [List.append_assoc]
    rw [heq]
    exact ih c' _ (hsup c' (List.mem_cons_self _ _))
      (fun x hx => hsup x (List.mem_cons_of_mem _ hx))

theorem ends_note_expWord {w : List Char} (hw : WordOK w) (pre : List MSym) :
    EndsNote (pre ++ expWord w) := by
  obtain ⟨hne, hsup⟩ := hw
  cases w with
  | nil => exact absurd rfl hne
  | cons c cs =>
    show EndsNote (pre ++ (patSyms c ++ cs.flatMap (fun c' => MSym.lsep :: patSyms c')))
    exact ends_note_word_shape cs c pre (hsup c (List.mem_cons_self _ _))
      (fun x hx => hsup x (List.mem_cons_of_mem _ hx))

theorem wordsTail_fold :
    ∀ (ws : List (List Char)), (∀ w ∈ ws, WordOK w) →
      ∀ (acc : List MSym) (last t : ℚ), EndsNote acc → t - last = 0.4 →
        List.foldl (classifyStep 0.25) (acc, last) (melodyTimes (tailChunk ws) t) =
          (acc ++ ws.flatMap (fun w => MSym.wsep :: expWord w),
            if ws = [] then last else t + advanceOf (tailChunk ws) - 0.4) := by
  intro ws
  induction ws with
  | nil =>
    intro _ acc last t _ _
    show List.foldl (classifyStep 0.25) (acc, last) (melodyTimes [] t) = _
    rw [melodyTimes]
    simp
  | cons w ws' ih =>
    intro hok acc last t hend hgap
    have hw : WordOK w := hok w (List.mem_cons_self _ _)
    have hok' : ∀ x ∈ ws', WordOK x := fun x hx => hok x (List.mem_cons_of_mem _ hx)
    have hadv2 : advanceOf [MSym.wsep, MSym.lsep] = 1.1 := by
      rw [advanceOf_cons, advanceOf_cons, advanceOf_nil]
      show (0.8 : ℚ) + (0.3 + 0) = 1.1
      norm_num
    have hmt2 : ∀ u : ℚ, melodyTimes [MSym.wsep, MSym.lsep] u = [] := by
      intro u
      rw [melodyTimes, melodyTimes, melodyTimes]
    have hadvT : advanceOf (tailChunk (w :: ws')) =
        1.1 + advanceOf (encWord w) + advanceOf (tailChunk ws') := by
      rw [tailChunk_cons, advanceOf_append, advanceOf_append, hadv2, add_assoc]
    rw [hadvT, tailChunk_cons, List.append_assoc, melodyTimes_append, hmt2, hadv2,
      List.nil_append, melodyTimes_append, List.foldl_append,
      word_fold_after hw acc last (t + 1.1) hend (by linarith),
      ih hok' (acc ++ MSym.wsep :: expWord w)
        (t + 1.1 + advanceOf (encWord w) - 0.4)
        (t + 1.1 + advanceOf (encWord w)) ?hend2 (by ring)]
    case hend2 =>
      have heq : acc ++ MSym.wsep :: expWord w = (acc ++ [MSym.wsep]) ++ expWord w := by
        simp [List.append_assoc]
      rw [heq]
      exact ends_note_expWord hw _
    rw [if_neg (List.cons_ne_nil _ _)]
    by_cases hws : ws' = []
    · subst hws
      rw [if_pos rfl, Prod.mk.injEq]
      refine ⟨by simp [List.append_assoc], ?_⟩
      show t + 1.1 + advanceOf (encWord w) - 0.4 =
        t + (1.1 + advanceOf (encWord w) + advanceOf (tailChunk [])) - 0.4
      show t + 1.1 + advanceOf (encWord w) - 0.4 =
        t + (1.1 + advanceOf (encWord w) + advanceOf []) - 0.4
      rw [advanceOf_nil]
      ring
    · rw [if_neg hws, Prod.mk.injEq]
      refine ⟨by simp [List.append_assoc], ?_⟩
      ring

/-- The decoded symbol stream of a normalized message equals the morse of
its words with single letter separators inside words and single word
separators between words. -/
theorem decode_syms_eq (ws : List (List Char)) (hok : WordsOK ws) :
    morseSymbolsOf 0.25 (melodyTimes (morseSeq (joinWords ws)) 0) = expMsg ws := by
  obtain ⟨hne, hall⟩ := hok
  cases ws with
  | nil => exact absurd rfl hne
  | cons w rest =>
    have hw : WordOK w := hall w (List.mem_cons_self _ _)
    have hrest : ∀ x ∈ rest, WordOK x := fun x hx => hall x (List.mem_cons_of_mem _ hx)
    rw [morseSeq_joinWords _ hall (List.cons_ne_nil _ _)]
    show morseSymbolsOf 0.25 (melodyTimes (encWord w ++ tailChunk rest) 0) = _
    unfold morseSymbolsOf
    rw [melodyTimes_append, List.foldl_append,
      word_fold_first hw [] 0 0 (by norm_num),
      wordsTail_fold rest hrest ([] ++ expWord w)
        (0 + advanceOf (encWord w) - 0.4) (0 + advanceOf (encWord w))
        (ends_note_expWord hw []) (by ring)]
    show ([] ++ expWord w ++ rest.flatMap (fun w' => MSym.wsep :: expWord w')) = _
    rw [List.nil_append]
    rfl

/-! ## The morse-to-text parse loop -/

theorem head_append_left {α : Type} (l₁ l₂ : List α) (h : l₁ ≠ []) :
    (l₁ ++ l₂).head? = l₁.head? := by
  cases l₁ with
  | nil => exact absurd rfl h
  | cons a l => rfl

theorem parse_run :
    ∀ (ps : List MSym), (∀ s ∈ ps, s = MSym.dot ∨ s = MSym.dash) →
      ∀ (tx cur : List Char),
        List.foldl parseStep (tx, cur) ps = (tx, cur ++ ps.map symChar) := by
  intro ps
  induction ps with
  | nil => intro _ tx cur; simp
  | cons s ps' ih =>
    intro hns tx cur
    have hns' : ∀ x ∈ ps', x = MSym.dot ∨ x = MSym.dash :=
      fun x hx => hns x (List.mem_cons_of_mem _ hx)
    rcases hns s (List.mem_cons_self _ _) with rfl | rfl
    · rw [List.foldl_cons]
      show List.foldl parseStep (tx, cur ++ ['.']) ps' = _
      rw [ih hns' tx (cur ++ ['.'])]
      simp [symChar, List.append_assoc]
    · rw [List.foldl_cons]
      show List.foldl parseStep (tx, cur ++ ['-']) ps' = _
      rw [ih hns' tx (cur ++ ['-'])]
      simp [symChar, List.append_assoc]

theorem getLastD_mem_cons : ∀ (cs : List Char) (c : Char), cs.getLastD c ∈ c :: cs := by
  intro cs
  induction cs with
  | nil => intro c; exact List.mem_cons_self _ _
  | cons x xs ih =>
    intro c
    rw [List.getLastD_cons]
    exact List.mem_cons_of_mem _ (ih x)

theorem getLast_getD_cons :
    ∀ (cs : List Char) (c d : Char), ((c :: cs).getLast?).getD d = cs.getLastD c := by
  intro cs
  induction cs with
  | nil => intro c d; rw [List.getLast?_singleton]; rfl
  | cons x xs ih =>
    intro c d
    rw [List.getLast?_cons_cons, ih x d, List.getLastD_cons]

theorem dropLast_map_getLastD :
    ∀ (cs : List Char) (c : Char) (f : Char → Char),
      ((c :: cs).dropLast.map f) ++ [f (cs.getLastD c)] = (c :: cs).map f := by
  intro cs
  induction cs with
  | nil => intro c f; rfl
  | cons x xs ih =>
    intro c f
    show ((c :: (x :: xs).dropLast).map f) ++ [f ((x :: xs).getLastD c)] = _
    rw [List.getLastD_cons, List.map_cons, List.cons_append, ih x f]
    rfl

theorem parse_word_aux :
    ∀ (cs : List Char) (c : Char) (tx : List Char), SuppChar c →
      (∀ x ∈ cs, SuppChar x) →
      List.foldl parseStep (tx, (patSyms c).map symChar)
          (cs.flatMap fun x => MSym.lsep :: patSyms x) =
        (tx ++ (c :: cs).dropLast.map (fun x => x.toUpper),
          (patSyms (cs.getLastD c)).map symChar) := by
  intro cs
  induction cs with
  | nil =>
    intro c tx hc _
    show List.foldl parseStep (tx, (patSyms c).map symChar) [] = _
    rw [List.foldl_nil]
    show (tx, (patSyms c).map symChar) = (tx ++ [], (patSyms c).map symChar)
    rw [List.append_nil]
  | cons c' cs' ih =>
    intro c tx hc hsup
    have hc' : SuppChar c' := hsup c' (List.mem_cons_self _ _)
    have hsup' : ∀ x ∈ cs', SuppChar x := fun x hx => hsup x (List.mem_cons_of_mem _ hx)
    have hne : (patSyms c).map symChar ≠ [] :=
      fun h => patSyms_ne_nil hc (List.map_eq_nil_iff.mp h)
    have hstep : parseStep (tx, (patSyms c).map symChar) MSym.lsep =
        (tx ++ [c.toUpper], []) := by
      show (if (patSyms c).map symChar ≠ [] then
          (tx ++ [lookupChar ((patSyms c).map symChar)], []) else _) = _
      rw [if_pos hne, lookup_patSyms hc]
    have hflat : ((c' :: cs').flatMap fun x => MSym.lsep :: patSyms x) =
        MSym.lsep :: (patSyms c' ++ (cs'.flatMap fun x => MSym.lsep :: patSyms x)) := by
      rw [List.flatMap_cons, List.cons_append]
    rw [hflat, List.foldl_cons, hstep, List.foldl_append,
      parse_run (patSyms c') (patSyms_noterun hc') (tx ++ [c.toUpper]) [],
      List.nil_append, ih c' (tx ++ [c.toUpper]) hc' hsup', List.getLastD_cons,
      Prod.mk.injEq]
    refine ⟨?_, rfl⟩
    show (tx ++ [c.toUpper]) ++ ((c' :: cs').dropLast.map fun x => x.toUpper) =
      tx ++ ((c :: (c' :: cs').dropLast).map fun x => x.toUpper)
    rw [List.map_cons]
    simp [List.append_assoc]

theorem words_parse_flush :
    ∀ (rest : List (List Char)), (∀ w ∈ rest, WordOK w) →
      ∀ (tx : List Char) (d : Char), SuppChar d →
        (if (List.foldl parseStep (tx, (patSyms d).map symChar)
            (rest.flatMap fun w' => MSym.wsep :: expWord w')).2 ≠ [] then
          (List.foldl parseStep (tx, (patSyms d).map symChar)
            (rest.flatMap fun w' => MSym.wsep :: expWord w')).1 ++
            [lookupChar (List.foldl parseStep (tx, (patSyms d).map symChar)
              (rest.flatMap fun w' => MSym.wsep :: expWord w')).2]
        else (List.foldl parseStep (tx, (patSyms d).map symChar)
            (rest.flatMap fun w' => MSym.wsep :: expWord w')).1) =
          tx ++ flushTail d rest := by
  intro rest
  induction rest with
  | nil =>
    intro _ tx d hd
    have hne : (patSyms d).map symChar ≠ [] :=
      fun h => patSyms_ne_nil hd (List.map_eq_nil_iff.mp h)
    show (if (patSyms d).map symChar ≠ [] then
        tx ++ [lookupChar ((patSyms d).map symChar)] else tx) = tx ++ flushTail d []
    rw [if_pos hne, lookup_patSyms hd]
    rfl
  | cons w rest' ih =>
    intro hall tx d hd
    obtain ⟨hwne, hwsup⟩ := hall w (List.mem_cons_self _ _)
    cases w with
    | nil => exact absurd rfl hwne
    | cons c cs =>
      have hc : SuppChar c := hwsup c (List.mem_cons_self _ _)
      have hcsup : ∀ x ∈ cs, SuppChar x := fun x hx => hwsup x (List.mem_cons_of_mem _ hx)
      have hall' : ∀ x ∈ rest', WordOK x := fun x hx => hall x (List.mem_cons_of_mem _ hx)
      have hne : (patSyms d).map symChar ≠ [] :=
        fun h => patSyms_ne_nil hd (List.map_eq_nil_iff.mp h)
      have hstepw : parseStep (tx, (patSyms d).map symChar) MSym.wsep =
          (((tx ++ [d.toUpper]) ++ [' ']), []) := by
        show ((if (patSyms d).map symChar ≠ [] then
            tx ++ [lookupChar ((patSyms d).map symChar)] else tx) ++ [' '], []) = _
        rw [if_pos hne, lookup_patSyms hd]
      have hl : (((c :: cs) :: rest').flatMap fun w' => MSym.wsep :: expWord w') =
          MSym.wsep :: ((patSyms c ++ (cs.flatMap fun x => MSym.lsep :: patSyms x)) ++
            (rest'.flatMap fun w' => MSym.wsep :: expWord w')) := by
        rw [List.flatMap_cons, List.cons_append]
        rfl
      have hfold : List.foldl parseStep (tx, (patSyms d).map symChar)
          (((c :: cs) :: rest').flatMap fun w' => MSym.wsep :: expWord w') =
          List.foldl parseStep
            ((((tx ++ [d.toUpper]) ++ [' ']) ++
                ((c :: cs).dropLast.map fun x => x.toUpper)),
              (patSyms (cs.getLastD c)).map symChar)
            (rest'.flatMap fun w' => MSym.wsep :: expWord w') := by
        rw [hl, List.foldl_cons, hstepw, List.foldl_append, List.foldl_append,
          parse_run (patSyms c) (patSyms_noterun hc) _ [], List.nil_append,
          parse_word_aux cs c _ hc hcsup]
      rw [hfold,
        ih hall' ((((tx ++ [d.toUpper]) ++ [' ']) ++
            ((c :: cs).dropLast.map fun x => x.toUpper)))
          (cs.getLastD c) (hwsup _ (getLastD_mem_cons cs c))]
      have hft : flushTail d ((c :: cs) :: rest') =
          d.toUpper :: ' ' :: ((c :: cs).dropLast.map (fun x => x.toUpper) ++
            flushTail (cs.getLastD c) rest') := by
        show d.toUpper :: ' ' :: ((c :: cs).dropLast.map (fun x => x.toUpper) ++
            flushTail (((c :: cs).getLast?).getD d) rest') = _
        rw [getLast_getD_cons]
      rw [hft]
      simp [List.append_assoc]

theorem flushTail_join :
    ∀ (rest : List (List Char)), (∀ w ∈ rest, WordOK w) →
      ∀ (c : Char) (cs : List Char), SuppChar c → (∀ x ∈ cs, SuppChar x) →
        ((c :: cs).dropLast.map fun x => x.toUpper) ++
            flushTail (cs.getLastD c) rest =
          upperJoin ((c :: cs) :: rest) := by
  intro rest
  induction rest with
  | nil =>
    intro _ c cs _ _
    show ((c :: cs).dropLast.map fun x => x.toUpper) ++ [(cs.getLastD c).toUpper] =
      (c :: cs).map fun x => x.toUpper
    exact dropLast_map_getLastD cs c _
  | cons w2 rest' ih =>
    intro hall c cs hc hcs
    obtain ⟨h2ne, h2sup⟩ := hall w2 (List.mem_cons_self _ _)
    cases w2 with
    | nil => exact absurd rfl h2ne
    | cons c2 cs2 =>
      have hall' : ∀ x ∈ rest', WordOK x := fun x hx => hall x (List.mem_cons_of_mem _ hx)
      have hft : flushTail (cs.getLastD c) ((c2 :: cs2) :: rest') =
          (cs.getLastD c).toUpper :: ' ' ::
            ((c2 :: cs2).dropLast.map (fun x => x.toUpper) ++
              flushTail (cs2.getLastD c2) rest') := by
        show (cs.getLastD c).toUpper :: ' ' ::
            ((c2 :: cs2).dropLast.map (fun x => x.toUpper) ++
              flushTail (((c2 :: cs2).getLast?).getD (cs.getLastD c)) rest') = _
        rw [getLast_getD_cons]
      have huj : upperJoin ((c :: cs) :: (c2 :: cs2) :: rest') =
          ((c :: cs).map fun x => x.toUpper) ++
            ' ' :: upperJoin ((c2 :: cs2) :: rest') := rfl
      rw [hft, huj,
        ← ih hall' c2 cs2 (h2sup _ (List.mem_cons_self _ _))
          (fun x hx => h2sup x (List.mem_cons_of_mem _ hx)),
        ← dropLast_map_getLastD cs c (fun x => x.toUpper)]
      simp [List.append_assoc]

theorem decoded_expMsg (ws : List (List Char)) (hok : WordsOK ws) :
    decodedCharsOf (expMsg ws) = upperJoin ws := by
  obtain ⟨hne, hall⟩ := hok
  cases ws with
  | nil => exact absurd rfl hne
  | cons w rest =>
    obtain ⟨hwne, hwsup⟩ := hall w (List.mem_cons_self _ _)
    cases w with
    | nil => exact absurd rfl hwne
    | cons c cs =>
      have hc : SuppChar c := hwsup c (List.mem_cons_self _ _)
      have hcsup : ∀ x ∈ cs, SuppChar x := fun x hx => hwsup x (List.mem_cons_of_mem _ hx)
      have hall' : ∀ x ∈ rest, WordOK x := fun x hx => hall x (List.mem_cons_of_mem _ hx)
      have hmsg : expMsg ((c :: cs) :: rest) =
          (patSyms c ++ (cs.flatMap fun x => MSym.lsep :: patSyms x)) ++
            (rest.flatMap fun w' => MSym.wsep :: expWord w') := rfl
      have hfold : List.foldl parseStep ([], []) (expMsg ((c :: cs) :: rest)) =
          List.foldl parseStep
            (((c :: cs).dropLast.map fun x => x.toUpper),
              (patSyms (cs.getLastD c)).map symChar)
            (rest.flatMap fun w' => MSym.wsep :: expWord w') := by
        rw [hmsg, List.foldl_append, List.foldl_append,
          parse_run (patSyms c) (patSyms_noterun hc) [] [], List.nil_append,
          parse_word_aux cs c [] hc hcsup, List.nil_append]
      show (if (List.foldl parseStep ([], []) (expMsg ((c :: cs) :: rest))).2 ≠ [] then
          (List.foldl parseStep ([], []) (expMsg ((c :: cs) :: rest))).1 ++
            [lookupChar (List.foldl parseStep ([], []) (expMsg ((c :: cs) :: rest))).2]
        else (List.foldl parseStep ([], []) (expMsg ((c :: cs) :: rest))).1) = _
      rw [hfold,
        words_parse_flush rest hall' ((c :: cs).dropLast.map fun x => x.toUpper)
          (cs.getLastD c) (hwsup _ (getLastD_mem_cons cs c))]
      exact flushTail_join rest hall' c cs hc hcsup

/-! ## Stripping and confidence on decoded messages -/

theorem stripChars_eq_self {l : List Char}
    (h1 : ∀ c, l.head? = some c → c.isWhitespace = false)
    (h2 : ∀ c, l.getLast? = some c → c.isWhitespace = false) :
    stripChars l = l := by
  unfold stripChars
  cases l with
  | nil => rfl
  | cons x xs =>
    have hx : x.isWhitespace = false := h1 x rfl
    rw [List.dropWhile_cons, if_neg (by rw [hx]; exact Bool.false_ne_true)]
    cases hr : (x :: xs).reverse with
    | nil => exact absurd hr (by simp)
    | cons y ys =>
      have hy : y.isWhitespace = false := by
        apply h2
        rw [← List.head?_reverse, hr]
        rfl
      rw [List.dropWhile_cons, if_neg (by rw [hy]; exact Bool.false_ne_true),
        ← hr, List.reverse_reverse]

theorem upperJoin_head (c : Char) (cs : List Char) (rest : List (List Char)) :
    (upperJoin ((c :: cs) :: rest)).head? = some c.toUpper := by
  cases rest with
  | nil => rfl
  | cons r rs => rfl

theorem upperJoin_ne_nil (c : Char) (cs : List Char) (rest : List (List Char)) :
    upperJoin ((c :: cs) :: rest) ≠ [] := by
  intro h
  have hh := upperJoin_head c cs rest
  rw [h] at hh
  exact Option.noConfusion hh

theorem upperJoin_getLast :
    ∀ (ws : List (List Char)), (∀ w ∈ ws, WordOK w) →
      ∀ d, (upperJoin ws).getLast? = some d → d ≠ '?' ∧ d.isWhitespace = false := by
  intro ws
  induction ws with
  | nil =>
    intro _ d hd
    rw [show upperJoin [] = ([] : List Char) from rfl] at hd
    exact Option.noConfusion hd
  | cons w rest ih =>
    intro hall d hd
    obtain ⟨hwne, hwsup⟩ := hall w (List.mem_cons_self _ _)
    cases w with
    | nil => exact absurd rfl hwne
    | cons c cs =>
      cases rest with
      | nil =>
        rw [show upperJoin [(c :: cs)] = (c :: cs).map (fun x => x.toUpper) from rfl,
          List.getLast?_map, List.getLast?_eq_getLast _ (List.cons_ne_nil c cs)] at hd
        have hd' : ((c :: cs).getLast (List.cons_ne_nil c cs)).toUpper = d :=
          Option.some.inj hd
        rw [← hd']
        exact suppChar_upper_plain
          (hwsup _ (List.getLast_mem (List.cons_ne_nil c cs)))
      | cons w2 rest' =>
        obtain ⟨h2ne, _⟩ := hall w2 (List.mem_cons_of_mem _ (List.mem_cons_self _ _))
        cases w2 with
        | nil => exact absurd rfl h2ne
        | cons c2 cs2 =>
          rw [show upperJoin ((c :: cs) :: (c2 :: cs2) :: rest') =
              ((c :: cs).map fun x => x.toUpper) ++
                (' ' :: upperJoin ((c2 :: cs2) :: rest')) from rfl,
            List.getLast?_append_of_ne_nil _ (List.cons_ne_nil _ _),
            show (' ' :: upperJoin ((c2 :: cs2) :: rest')) =
              [' '] ++ upperJoin ((c2 :: cs2) :: rest') from rfl,
            List.getLast?_append_of_ne_nil _ (upperJoin_ne_nil c2 cs2 rest')] at hd
          exact ih (fun x hx => hall x (List.mem_cons_of_mem _ hx)) d hd

theorem upperJoin_mem :
    ∀ (ws : List (List Char)), (∀ w ∈ ws, WordOK w) →
      ∀ ch ∈ upperJoin ws, ch = ' ' ∨ (ch ≠ '?' ∧ ch.isWhitespace = false) := by
  intro ws
  induction ws with
  | nil =>
    intro _ ch hch
    rw [show upperJoin [] = ([] : List Char) from rfl] at hch
    exact absurd hch (List.not_mem_nil ch)
  | cons w rest ih =>
    intro hall ch hch
    obtain ⟨hwne, hwsup⟩ := hall w (List.mem_cons_self _ _)
    cases w with
    | nil => exact absurd rfl hwne
    | cons c cs =>
      cases rest with
      | nil =>
        rw [show upperJoin [(c :: cs)] = (c :: cs).map (fun x => x.toUpper)
          from rfl] at hch
        obtain ⟨x, hx, rfl⟩ := List.mem_map.1 hch
        exact Or.inr (suppChar_upper_plain (hwsup x hx))
      | cons w2 rest' =>
        rw [show upperJoin ((c :: cs) :: w2 :: rest') =
            ((c :: cs).map fun x => x.toUpper) ++ (' ' :: upperJoin (w2 :: rest'))
            from rfl] at hch
        rcases List.mem_append.1 hch with h | h
        · obtain ⟨x, hx, rfl⟩ := List.mem_map.1 h
          exact Or.inr (suppChar_upper_plain (hwsup x hx))
        · rcases List.mem_cons.1 h with rfl | h2
          · exact Or.inl rfl
          · exact ih (fun x hx => hall x (List.mem_cons_of_mem _ hx)) ch h2

theorem strip_upperJoin (ws : List (List Char)) (hok : WordsOK ws) :
    stripChars (upperJoin ws) = upperJoin ws := by
  obtain ⟨hne, hall⟩ := hok
  cases ws with
  | nil => exact absurd rfl hne
  | cons w rest =>
    obtain ⟨hwne, hwsup⟩ := hall w (List.mem_cons_self _ _)
    cases w with
    | nil => exact absurd rfl hwne
    | cons c cs =>
      apply stripChars_eq_self
      · intro x hx
        rw [upperJoin_head c cs rest] at hx
        rw [← Option.some.inj hx]
        exact (suppChar_upper_plain (hwsup c (List.mem_cons_self _ _))).2
      · intro x hx
        exact (upperJoin_getLast _ hall x hx).2

theorem confidence_upperJoin (ws : List (List Char)) (hok : WordsOK ws) :
    confidenceOf (upperJoin ws) = 100 := by
  obtain ⟨hne, hall⟩ := hok
  have hcount : (upperJoin ws).count '?' = 0 := by
    rw [List.count_eq_zero]
    intro hmem
    rcases upperJoin_mem ws hall '?' hmem with h | h
    · exact absurd h (by decide)
    · exact h.1 rfl
  have hposmem : ∃ ch ∈ upperJoin ws, ch ≠ ' ' := by
    cases ws with
    | nil => exact absurd rfl hne
    | cons w rest =>
      obtain ⟨hwne, hwsup⟩ := hall w (List.mem_cons_self _ _)
      cases w with
      | nil => exact absurd rfl hwne
      | cons c cs =>
        refine ⟨c.toUpper, ?_, ?_⟩
        · have hh := upperJoin_head c cs rest
          cases hl : upperJoin ((c :: cs) :: rest) with
          | nil => rw [hl] at hh; exact absurd hh (Option.noConfusion ·)
          | cons y ys =>
            rw [hl] at hh
            rw [← Option.some.inj hh]
            exact List.mem_cons_self _ _
        · have hws := (suppChar_upper_plain (hwsup c (List.mem_cons_self _ _))).2
          intro heq
          rw [heq] at hws
          exact absurd hws (by decide)
  rw [confidenceOf_eq]
  obtain ⟨ch, hchmem, hchne⟩ := hposmem
  have hfmem : ch ∈ (upperJoin ws).filter fun c => c ≠ ' ' := by
    rw [List.mem_filter]
    exact ⟨hchmem, by simp [hchne]⟩
  have hpos : 0 < ((upperJoin ws).filter fun c => c ≠ ' ').length :=
    List.length_pos.2 (List.ne_nil_of_mem hfmem)
  rw [if_pos hpos, hcount, Nat.cast_zero, sub_zero,
    div_self (by exact_mod_cast Nat.pos_iff_ne_zero.mp hpos), one_mul]

/-- Decoding the exact (unquantized) melody timeline of a normalized message
recovers the upper-cased message with confidence 100. -/
theorem decode_melodyTimes (ws : List (List Char)) (hok : WordsOK ws)
    (hn : 2 ≤ noteCount (morseSeq (joinWords ws)))
    (hd : noteCount (morseSeq (joinWords ws)) / 3 < dotCount (morseSeq (joinWords ws))) :
    decodeNotes (melodyTimes (morseSeq (joinWords ws)) 0) =
      ⟨String.mk ((expMsg ws).map symChar), String.mk (upperJoin ws), 100⟩ := by
  have hlen : (melodyTimes (morseSeq (joinWords ws)) 0).length =
      noteCount (morseSeq (joinWords ws)) := melodyTimes_length _ 0
  have hnn : melodyTimes (morseSeq (joinWords ws)) 0 ≠ [] := by
    intro h
    rw [h, List.length_nil] at hlen
    omega
  unfold decodeNotes
  dsimp only
  rw [if_neg hnn, sortByStart_melodyTimes, melodyTimes_map_snd,
    if_neg (by rw [show ((symDurList (morseSeq (joinWords ws))).length =
        noteCount (morseSeq (joinWords ws))) from rfl]; omega),
    dotThreshold_of_dots _ hn hd, decode_syms_eq ws hok, decoded_expMsg ws hok,
    strip_upperJoin ws hok, confidence_upperJoin ws hok]

/-- Claim C1 counterexample: the single-character message `"E"` consists only
of supported characters, yet decoding its encoded melody track does not
return the upper-cased message: one note is below the decoder's two-note
minimum, so it answers `"Not enough notes to analyze"` with confidence 0. -/
theorem c1_round_trip_counterexample :
    ((decodeNotes ((generateMelody MKey.cMajor MStyle.classical (fun _ => 0)
        ['E']).map fun n => (n.start, n.duration))).text = "E") = False := by
  have hproj : (generateMelody MKey.cMajor MStyle.classical (fun _ => 0) ['E']).map
      (fun n => (n.start, n.duration)) = melodyTimes (morseSeq ['E']) 0 :=
    genMelodyAux_times MKey.cMajor MStyle.classical (fun _ => 0) (morseSeq ['E'])
      ⟨[], 0⟩ 0 0
  refine eq_false (fun heq => ?_)
  rw [hproj] at heq
  have hmt : melodyTimes (morseSeq ['E']) 0 = [(0, 0.25)] := rfl
  rw [hmt] at heq
  have hres : decodeNotes [(0, 0.25)] = ⟨"", "Not enough notes to analyze", 0⟩ := by
    norm_num +decide [decodeNotes, sortByStart, List.insertionSort, List.orderedInsert]
  rw [hres] at heq
  exact absurd heq (by decide)

/-- Claim C1, amended: for every normalized supported message — nonempty
words of supported characters (letters and digits) separated by single
spaces — whose encoding has at least two notes and whose dot count exceeds
a third of the note count (so that the duration order statistic the decoder
uses as dot threshold is a dot), decoding the melody track of the
non-humanized encoding returns exactly the upper-cased message, with
confidence 100 (on the decoder's 0–100 scale), for every key and style.
Messages outside these conditions can fail: a single-character message has
fewer than two notes and decodes to a diagnostic instead. -/
theorem c1_round_trip (ws : List (List Char)) (key : MKey) (style : MStyle)
    (rng : ℕ → ℕ) (hok : WordsOK ws)
    (hn : 2 ≤ noteCount (morseSeq (joinWords ws)))
    (hd : noteCount (morseSeq (joinWords ws)) / 3 <
      dotCount (morseSeq (joinWords ws))) :
    decodeNotes ((generateMelody key style rng (joinWords ws)).map
        fun n => (n.start, n.duration)) =
      ⟨String.mk ((expMsg ws).map symChar), String.mk (upperJoin ws), 100⟩ := by
  rw [show (generateMelody key style rng (joinWords ws)).map
        (fun n => (n.start, n.duration))
      = melodyTimes (morseSeq (joinWords ws)) 0 from
    genMelodyAux_times key style rng (morseSeq (joinWords ws)) ⟨[], 0⟩ 0 0]
  exact decode_melodyTimes ws hok hn hd

theorem c1_round_trip_witness :
    WordsOK [['S', 'O', 'S']] ∧
    2 ≤ noteCount (morseSeq (joinWords [['S', 'O', 'S']])) ∧
    noteCount (morseSeq (joinWords [['S', 'O', 'S']])) / 3 <
      dotCount (morseSeq (joinWords [['S', 'O', 'S']])) ∧
    decodeNotes ((generateMelody MKey.cMajor MStyle.classical (fun _ => 0)
        (joinWords [['S', 'O', 'S']])).map fun n => (n.start, n.duration)) =
      ⟨String.mk ((expMsg [['S', 'O', 'S']]).map symChar),
        String.mk (upperJoin [['S', 'O', 'S']]), 100⟩ :=
  ⟨by decide, by decide, by decide,
    c1_round_trip [['S', 'O', 'S']] MKey.cMajor MStyle.classical (fun _ => 0)
      (by decide) (by decide) (by decide)⟩

/-! ## Gap structure of the encoder timeline (C7) -/

theorem run_chain_head :
    ∀ (ps : List MSym), (∀ s ∈ ps, s = MSym.dot ∨ s = MSym.dash) → ∀ t : ℚ,
      List.Chain' GapStep (melodyTimes ps t) ∧
      (ps ≠ [] → ∃ d, (melodyTimes ps t).head? = some (t, d)) := by
  intro ps
  induction ps with
  | nil =>
    intro _ t
    exact ⟨by rw [show melodyTimes [] t = [] from rfl]; exact List.chain'_nil,
      fun h => absurd rfl h⟩
  | cons s ps' ih =>
    intro hns t
    have hns' : ∀ x ∈ ps', x = MSym.dot ∨ x = MSym.dash :=
      fun x hx => hns x (List.mem_cons_of_mem _ hx)
    rcases hns s (List.mem_cons_self _ _) with rfl | rfl
    · rw [show melodyTimes (MSym.dot :: ps') t =
        (t, 0.25) :: melodyTimes ps' (t + (0.25 + 0.1)) from rfl]
      refine ⟨?_, fun _ => ⟨0.25, rfl⟩⟩
      rw [List.chain'_cons']
      refine ⟨?_, (ih hns' _).1⟩
      intro b hb
      rw [Option.mem_def] at hb
      by_cases hps : ps' = []
      · subst hps
        rw [show melodyTimes [] (t + (0.25 + 0.1)) = [] from rfl] at hb
        exact Option.noConfusion hb
      · obtain ⟨d, hdh⟩ := (ih hns' (t + (0.25 + 0.1))).2 hps
        rw [hdh] at hb
        obtain rfl : (t + (0.25 + 0.1), d) = b := Option.some.inj hb
        left
        show (t + (0.25 + 0.1)) - (t + 0.25) = 0.1
        ring
    · rw [show melodyTimes (MSym.dash :: ps') t =
        (t, 0.75) :: melodyTimes ps' (t + (0.75 + 0.1)) from rfl]
      refine ⟨?_, fun _ => ⟨0.75, rfl⟩⟩
      rw [List.chain'_cons']
      refine ⟨?_, (ih hns' _).1⟩
      intro b hb
      rw [Option.mem_def] at hb
      by_cases hps : ps' = []
      · subst hps
        rw [show melodyTimes [] (t + (0.75 + 0.1)) = [] from rfl] at hb
        exact Option.noConfusion hb
      · obtain ⟨d, hdh⟩ := (ih hns' (t + (0.75 + 0.1))).2 hps
        rw [hdh] at hb
        obtain rfl : (t + (0.75 + 0.1), d) = b := Option.some.inj hb
        left
        show (t + (0.75 + 0.1)) - (t + 0.75) = 0.1
        ring

theorem lastEndOf_cons_ne {a : ℚ × ℚ} {l : List (ℚ × ℚ)} (h : l ≠ []) :
    lastEndOf (a :: l) = lastEndOf l := by
  unfold lastEndOf
  rw [show (a :: l) = [a] ++ l from rfl, List.getLast?_append_of_ne_nil _ h]

theorem lastEndOf_append {A B : List (ℚ × ℚ)} (h : B ≠ []) :
    lastEndOf (A ++ B) = lastEndOf B := by
  unfold lastEndOf
  rw [List.getLast?_append_of_ne_nil _ h]

theorem run_lastEnd :
    ∀ (ps : List MSym), (∀ s ∈ ps, s = MSym.dot ∨ s = MSym.dash) → ps ≠ [] →
      ∀ t : ℚ, lastEndOf (melodyTimes ps t) = some (t + advanceOf ps - 0.1) := by
  intro ps
  induction ps with
  | nil => intro _ h; exact absurd rfl h
  | cons s ps' ih =>
    intro hns _ t
    have hns' : ∀ x ∈ ps', x = MSym.dot ∨ x = MSym.dash :=
      fun x hx => hns x (List.mem_cons_of_mem _ hx)
    rcases hns s (List.mem_cons_self _ _) with rfl | rfl
    · rw [show melodyTimes (MSym.dot :: ps') t =
        (t, 0.25) :: melodyTimes ps' (t + (0.25 + 0.1)) from rfl]
      by_cases hps : ps' = []
      · subst hps
        show some (t + 0.25) = some (t + advanceOf [MSym.dot] - 0.1)
        rw [Option.some.injEq, advanceOf_cons, advanceOf_nil]
        show t + 0.25 = t + ((0.25 + 0.1) + 0) - 0.1
        ring
      · have htail : melodyTimes ps' (t + (0.25 + 0.1)) ≠ [] := by
          obtain ⟨d, hd⟩ := (run_chain_head ps' hns' (t + (0.25 + 0.1))).2 hps
          intro h
          rw [h] at hd
          exact Option.noConfusion hd
        rw [lastEndOf_cons_ne htail, ih hns' hps (t + (0.25 + 0.1)),
          Option.some.injEq, advanceOf_cons]
        show t + (0.25 + 0.1) + advanceOf ps' - 0.1 =
          t + ((0.25 + 0.1) + advanceOf ps') - 0.1
        ring
    · rw [show melodyTimes (MSym.dash :: ps') t =
        (t, 0.75) :: melodyTimes ps' (t + (0.75 + 0.1)) from rfl]
      by_cases hps : ps' = []
      · subst hps
        show some (t + 0.75) = some (t + advanceOf [MSym.dash] - 0.1)
        rw [Option.some.injEq, advanceOf_cons, advanceOf_nil]
        show t + 0.75 = t + ((0.75 + 0.1) + 0) - 0.1
        ring
      · have htail : melodyTimes ps' (t + (0.75 + 0.1)) ≠ [] := by
          obtain ⟨d, hd⟩ := (run_chain_head ps' hns' (t + (0.75 + 0.1))).2 hps
          intro h
          rw [h] at hd
          exact Option.noConfusion hd
        rw [lastEndOf_cons_ne htail, ih hns' hps (t + (0.75 + 0.1)),
          Option.some.injEq, advanceOf_cons]
        show t + (0.75 + 0.1) + advanceOf ps' - 0.1 =
          t + ((0.75 + 0.1) + advanceOf ps') - 0.1
        ring

theorem word_chain :
    ∀ (cs : List Char) (c : Char), SuppChar c → (∀ x ∈ cs, SuppChar x) →
      ∀ t : ℚ,
        List.Chain' GapStep (melodyTimes (encWord (c :: cs)) t) ∧
        (∃ d, (melodyTimes (encWord (c :: cs)) t).head? = some (t, d)) ∧
        lastEndOf (melodyTimes (encWord (c :: cs)) t) =
          some (t + advanceOf (encWord (c :: cs)) - 0.4) := by
  intro cs
  induction cs with
  | nil =>
    intro c hc _ t
    have hmt : melodyTimes (encWord [c]) t = melodyTimes (patSyms c) t := by
      rw [encWord_cons]
      show melodyTimes ((patSyms c ++ [MSym.lsep]) ++ encWord []) t = _
      rw [show encWord [] = ([] : List MSym) from rfl, List.append_nil,
        melodyTimes_letter]
    have hadv : advanceOf (encWord [c]) = advanceOf (patSyms c) + 0.3 := by
      rw [encWord_cons, show encWord [] = ([] : List MSym) from rfl,
        List.append_nil, adv_letter]
    rw [hmt, hadv]
    refine ⟨(run_chain_head (patSyms c) (patSyms_noterun hc) t).1,
      (run_chain_head (patSyms c) (patSyms_noterun hc) t).2 (patSyms_ne_nil hc), ?_⟩
    rw [run_lastEnd (patSyms c) (patSyms_noterun hc) (patSyms_ne_nil hc) t,
      Option.some.injEq]
    ring
  | cons c' cs' ih =>
    intro c hc hsup t
    have hc' : SuppChar c' := hsup c' (List.mem_cons_self _ _)
    have hsup' : ∀ x ∈ cs', SuppChar x := fun x hx => hsup x (List.mem_cons_of_mem _ hx)
    have hmt : melodyTimes (encWord (c :: c' :: cs')) t =
        melodyTimes (patSyms c) t ++
          melodyTimes (encWord (c' :: cs')) (t + (advanceOf (patSyms c) + 0.3)) := by
      rw [encWord_cons, melodyTimes_append, melodyTimes_letter, adv_letter]
    have hadv : advanceOf (encWord (c :: c' :: cs')) =
        advanceOf (patSyms c) + 0.3 + advanceOf (encWord (c' :: cs')) := by
      rw [encWord_cons, advanceOf_append, adv_letter]
    obtain ⟨ihc, ⟨dh, ihh⟩, ihl⟩ := ih c' hc' hsup' (t + (advanceOf (patSyms c) + 0.3))
    have hBne : melodyTimes (encWord (c' :: cs'))
        (t + (advanceOf (patSyms c) + 0.3)) ≠ [] := by
      intro h
      rw [h] at ihh
      exact Option.noConfusion ihh
    rw [hmt]
    refine ⟨?_, ?_, ?_⟩
    · rw [List.chain'_append]
      refine ⟨(run_chain_head (patSyms c) (patSyms_noterun hc) t).1, ihc, ?_⟩
      intro x hx y hy
      rw [Option.mem_def] at hx hy
      have hle := run_lastEnd (patSyms c) (patSyms_noterun hc) (patSyms_ne_nil hc) t
      unfold lastEndOf at hle
      rw [hx, Option.map_some'] at hle
      have hxe : x.1 + x.2 = t + advanceOf (patSyms c) - 0.1 := Option.some.inj hle
      rw [hy] at ihh
      have hye : y = (t + (advanceOf (patSyms c) + 0.3), dh) := Option.some.inj ihh
      right; left
      rw [hye, hxe]
      show (t + (advanceOf (patSyms c) + 0.3)) -
        (t + advanceOf (patSyms c) - 0.1) = 0.4
      ring
    · obtain ⟨d0, hd0⟩ :=
        (run_chain_head (patSyms c) (patSyms_noterun hc) t).2 (patSyms_ne_nil hc)
      have hAne : melodyTimes (patSyms c) t ≠ [] := by
        intro h
        rw [h] at hd0
        exact Option.noConfusion hd0
      exact ⟨d0, by rw [head_append_left _ _ hAne, hd0]⟩
    · rw [lastEndOf_append hBne, ihl, Option.some.injEq, hadv]
      ring

theorem msg_chain :
    ∀ (rest : List (List Char)), (∀ x ∈ rest, WordOK x) →
      ∀ (w : List Char), WordOK w → ∀ t : ℚ,
        List.Chain' GapStep (melodyTimes (encWord w ++ tailChunk rest) t) ∧
        (∃ d, (melodyTimes (encWord w ++ tailChunk rest) t).head? = some (t, d)) := by
  intro rest
  induction rest with
  | nil =>
    intro _ w hw t
    obtain ⟨hwne, hwsup⟩ := hw
    cases w with
    | nil => exact absurd rfl hwne
    | cons c cs =>
      rw [show tailChunk [] = ([] : List MSym) from rfl, List.append_nil]
      obtain ⟨h1, h2, _⟩ := word_chain cs c (hwsup c (List.mem_cons_self _ _))
        (fun x hx => hwsup x (List.mem_cons_of_mem _ hx)) t
      exact ⟨h1, h2⟩
  | cons w2 rest' ih =>
    intro hall w hw t
    obtain ⟨hwne, hwsup⟩ := hw
    cases w with
    | nil => exact absurd rfl hwne
    | cons c cs =>
      have hw2 : WordOK w2 := hall w2 (List.mem_cons_self _ _)
      have hall' : ∀ x ∈ rest', WordOK x := fun x hx => hall x (List.mem_cons_of_mem _ hx)
      have hadv2 : advanceOf [MSym.wsep, MSym.lsep] = 1.1 := by
        rw [advanceOf_cons, advanceOf_cons, advanceOf_nil]
        show (0.8 : ℚ) + (0.3 + 0) = 1.1
        norm_num
      have hsplit : melodyTimes (encWord (c :: cs) ++ tailChunk (w2 :: rest')) t =
          melodyTimes (encWord (c :: cs)) t ++
            melodyTimes (encWord w2 ++ tailChunk rest')
              (t + advanceOf (encWord (c :: cs)) + 1.1) := by
        rw [tailChunk_cons, melodyTimes_append, List.append_assoc, melodyTimes_append,
          show ∀ u : ℚ, melodyTimes [MSym.wsep, MSym.lsep] u = [] from fun u => rfl,
          List.nil_append, hadv2, add_assoc]
      obtain ⟨hc1, ⟨dw, hhw⟩, hlw⟩ := word_chain cs c (hwsup c (List.mem_cons_self _ _))
        (fun x hx => hwsup x (List.mem_cons_of_mem _ hx)) t
      obtain ⟨hr1, ⟨dr, hhr⟩⟩ := ih hall' w2 hw2 (t + advanceOf (encWord (c :: cs)) + 1.1)
      have hAne : melodyTimes (encWord (c :: cs)) t ≠ [] := by
        intro h
        rw [h] at hhw
        exact Option.noConfusion hhw
      rw [hsplit]
      constructor
      · rw [List.chain'_append]
        refine ⟨hc1, hr1, ?_⟩
        intro x hx y hy
        rw [Option.mem_def] at hx hy
        have hle := hlw
        unfold lastEndOf at hle
        rw [hx, Option.map_some'] at hle
        have hxe : x.1 + x.2 = t + advanceOf (encWord (c :: cs)) - 0.4 :=
          Option.some.inj hle
        rw [hhr] at hy
        have hye : (t + advanceOf (encWord (c :: cs)) + 1.1, dr) = y :=
          Option.some.inj hy
        right; right
        rw [← hye, hxe]
        show (t + advanceOf (encWord (c :: cs)) + 1.1) -
          (t + advanceOf (encWord (c :: cs)) - 0.4) = 1.5
        ring
      · exact ⟨dw, by rw [head_append_left _ _ hAne, hhw]⟩

theorem legacy_head :
    ∀ (cs : List Char), (∀ ch ∈ cs, ch = '.' ∨ ch = '-') → ∀ t : ℚ,
      ∀ b ∈ (legacyTimes cs t).head?, b.1 = t := by
  intro cs
  cases cs with
  | nil =>
    intro _ t b hb
    rw [Option.mem_def, show legacyTimes [] t = [] from rfl] at hb
    exact Option.noConfusion hb
  | cons ch r =>
    intro hns t b hb
    rcases hns ch (List.mem_cons_self _ _) with rfl | rfl
    · rw [Option.mem_def, show legacyTimes ('.' :: r) t =
        (t, 0.25) :: legacyTimes r (t + (0.25 + 0.25)) from rfl] at hb
      obtain rfl : (t, (0.25 : ℚ)) = b := Option.some.inj hb
      rfl
    · rw [Option.mem_def, show legacyTimes ('-' :: r) t =
        (t, 0.25 * 3) :: legacyTimes r (t + (0.25 * 3 + 0.25)) from rfl] at hb
      obtain rfl : (t, (0.25 : ℚ) * 3) = b := Option.some.inj hb
      rfl

theorem legacy_chain :
    ∀ (cs : List Char), (∀ ch ∈ cs, ch = '.' ∨ ch = '-') → ∀ t : ℚ,
      List.Chain' (fun a b => b.1 - (a.1 + a.2) = 0.25) (legacyTimes cs t) := by
  intro cs
  induction cs with
  | nil =>
    intro _ t
    rw [show legacyTimes [] t = [] from rfl]
    exact List.chain'_nil
  | cons ch r ih =>
    intro hns t
    have hns' : ∀ x ∈ r, x = '.' ∨ x = '-' :=
      fun x hx => hns x (List.mem_cons_of_mem _ hx)
    rcases hns ch (List.mem_cons_self _ _) with rfl | rfl
    · rw [show legacyTimes ('.' :: r) t =
        (t, 0.25) :: legacyTimes r (t + (0.25 + 0.25)) from rfl, List.chain'_cons']
      refine ⟨?_, ih hns' _⟩
      intro b hb
      have hbt := legacy_head r hns' (t + (0.25 + 0.25)) b hb
      show b.1 - (t + 0.25) = 0.25
      rw [hbt]
      ring
    · rw [show legacyTimes ('-' :: r) t =
        (t, 0.25 * 3) :: legacyTimes r (t + (0.25 * 3 + 0.25)) from rfl,
        List.chain'_cons']
      refine ⟨?_, ih hns' _⟩
      intro b hb
      have hbt := legacy_head r hns' (t + (0.25 * 3 + 0.25)) b hb
      show b.1 - (t + 0.25 * 3) = 0.25
      rw [hbt]
      ring

/-- Claim C7 counterexample: in the app encoder the message `"I"` yields two
dot notes with an intra-symbol silence of `0.1` s — `0.4` dot units, not the
claimed 1 unit — and `"EE"` yields a letter silence of `0.4` s — `1.6` dot
units, outside the claimed 2.5–3 unit range. -/
theorem c7_ratio_counterexample :
    ((generateMelody MKey.cMajor MStyle.classical (fun _ => 0) ['I']).map
        (fun n => (n.start, n.duration)) = [(0, 0.25), (0.35, 0.25)]) ∧
    (((0.35 : ℚ) - (0 + 0.25) = 1 * 0.25) = False) ∧
    ((generateMelody MKey.cMajor MStyle.classical (fun _ => 0) ['E', 'E']).map
        (fun n => (n.start, n.duration)) = [(0, 0.25), (0.65, 0.25)]) ∧
    ((2.5 * 0.25 ≤ (0.65 : ℚ) - (0 + 0.25) ∧
      (0.65 : ℚ) - (0 + 0.25) ≤ 3 * 0.25) = False) := by
  refine ⟨?_, eq_false (by norm_num), ?_, eq_false (by norm_num)⟩
  · rw [show (generateMelody MKey.cMajor MStyle.classical (fun _ => 0) ['I']).map
          (fun n => (n.start, n.duration)) = melodyTimes (morseSeq ['I']) 0 from
      genMelodyAux_times MKey.cMajor MStyle.classical (fun _ => 0) (morseSeq ['I'])
        ⟨[], 0⟩ 0 0,
      show morseSeq ['I'] = [MSym.dot, MSym.dot, MSym.lsep] from by decide]
    show ((0 : ℚ), (0.25 : ℚ)) :: ((0 : ℚ) + (0.25 + 0.1), (0.25 : ℚ)) :: [] = _
    norm_num
  · rw [show (generateMelody MKey.cMajor MStyle.classical (fun _ => 0) ['E', 'E']).map
          (fun n => (n.start, n.duration)) = melodyTimes (morseSeq ['E', 'E']) 0 from
      genMelodyAux_times MKey.cMajor MStyle.classical (fun _ => 0) (morseSeq ['E', 'E'])
        ⟨[], 0⟩ 0 0,
      show morseSeq ['E', 'E'] = [MSym.dot, MSym.lsep, MSym.dot, MSym.lsep] from
        by decide]
    show ((0 : ℚ), (0.25 : ℚ)) :: ((0 : ℚ) + (0.25 + 0.1) + 0.3, (0.25 : ℚ)) :: [] = _
    norm_num

/-- Claim C7, amended: in the app encoder's melody track the silences between
consecutive notes take exactly the fixed values `0.1` s (intra-symbol),
`0.4` s (letter gap) or `1.5` s (word gap) — that is `0.4`, `1.6` and `6`
dot units rather than the claimed `1`, `2.5–3` and `6–7` — for every
normalized supported message, key, style and random stream; every emitted
note lasts `0.25` s (dot) or `0.75` s (dash, 3 units as claimed); and in the
legacy `morse_to_midi` encoder the silence between consecutive notes of a
dot/dash run is exactly 1 dot unit (`0.25` s), as claimed. -/
theorem c7_gap_contract :
    (∀ (ws : List (List Char)) (key : MKey) (style : MStyle) (rng : ℕ → ℕ),
      WordsOK ws →
      List.Chain' GapStep ((generateMelody key style rng (joinWords ws)).map
        fun n => (n.start, n.duration))) ∧
    (∀ (S : List MSym) (t : ℚ), ∀ p ∈ melodyTimes S t, p.2 = 0.25 ∨ p.2 = 0.75) ∧
    (∀ (cs : List Char) (t : ℚ), (∀ ch ∈ cs, ch = '.' ∨ ch = '-') →
      List.Chain' (fun a b => b.1 - (a.1 + a.2) = 0.25) (legacyTimes cs t)) := by
  refine ⟨?_, ?_, ?_⟩
  · intro ws key style rng hok
    obtain ⟨hne, hall⟩ := hok
    cases ws with
    | nil => exact absurd rfl hne
    | cons w rest =>
      rw [show (generateMelody key style rng (joinWords (w :: rest))).map
            (fun n => (n.start, n.duration))
          = melodyTimes (morseSeq (joinWords (w :: rest))) 0 from
        genMelodyAux_times key style rng (morseSeq (joinWords (w :: rest))) ⟨[], 0⟩ 0 0,
        morseSeq_joinWords (w :: rest) hall (List.cons_ne_nil _ _)]
      exact (msg_chain rest (fun x hx => hall x (List.mem_cons_of_mem _ hx))
        w (hall w (List.mem_cons_self _ _)) 0).1
  · intro S t p hp
    have hmem : p.2 ∈ symDurList S := by
      rw [← melodyTimes_map_snd S t]
      exact List.mem_map_of_mem _ hp
    exact symDurList_values S p.2 hmem
  · intro cs t hns
    exact legacy_chain cs hns t

theorem c7_gap_contract_witness :
    WordsOK [['I'], ['S']] ∧
    List.Chain' GapStep ((generateMelody MKey.gMajor MStyle.folk (fun _ => 0)
        (joinWords [['I'], ['S']])).map fun n => (n.start, n.duration)) ∧
    (∀ ch ∈ ['.', '-'], ch = '.' ∨ ch = '-') ∧
    List.Chain' (fun a b => b.1 - (a.1 + a.2) = 0.25) (legacyTimes ['.', '-'] 0) :=
  ⟨by decide,
    c7_gap_contract.1 [['I'], ['S']] MKey.gMajor MStyle.folk (fun _ => 0) (by decide),
    by decide,
    c7_gap_contract.2.2 ['.', '-'] 0 (by decide)⟩

end MorseStudio
